import Mathlib

/-!
# MyContainer: a shallow embedding of `src/MyContainer.hpp`

The class template `ariel::MyContainer<T>` keeps a `std::vector<T> elements`
and offers `add`, `remove`, `size`, and six pairs of iterator producers.
Every iterator owns a private vector `sorted_elements` (the materialized
view) and a position `index`.

Modelling conventions

* `std::vector<T>` is a `List α`; `size_t` values are `Nat`.
* `int` is a 32-bit two's complement integer. The conversion of a `size_t`
  value to `int` (`int right = temp.size() - 1`, `int n = temp.size()`) is
  `toInt`, the value modulo `2^32`. The other `int` operations of the two
  loops are exact: their results never leave the `int` range.
* A read `temp[i]` is the checked read `readAt temp i`, which is `none` for
  an index outside `0 .. temp.size() - 1`; a constructor whose read is out
  of range (undefined behaviour) has the result `none`.
* `operator==` on `T` is decidable equality, `operator<` on `T` is the
  strict part of a linear order.
* A member function that can throw returns the outcome together with the
  state the object is left in.
* A `std::ostream` is the text written to it so far; what `os << element`
  writes for an element of type `T` is a parameter `render`.
-/

namespace ariel

/-! ## Standard library algorithms used by the class -/

/-- The algorithm `std::remove(first, last, value)` followed by `erase` of the
tail: the elements that do not compare equal to `value`, in their order. -/
def std_remove {α : Type} [DecidableEq α] : List α → α → List α
  | [], _ => []
  | x :: xs, value => if x = value then std_remove xs value else x :: std_remove xs value

/-- The algorithm `std::sort(first, last)`: the range rearranged into
non-decreasing order with respect to `operator<`. Over a linear order this
result does not depend on the sorting algorithm. -/
def std_sort {α : Type} [LinearOrder α] (v : List α) : List α :=
  v.insertionSort (fun a b => a ≤ b)

/-- The algorithm `std::sort(first, last, std::greater<T>())`: the range
rearranged into non-increasing order. -/
def std_sort_greater {α : Type} [LinearOrder α] (v : List α) : List α :=
  v.insertionSort (fun a b => b ≤ a)

/-- The algorithm `std::reverse(first, last)`. -/
def std_reverse {α : Type} (v : List α) : List α :=
  v.reverse

/-- The checked read `temp[i]` for an `int` index `i`: `none` when `i` is
negative or not below `temp.size()`. -/
def readAt {α : Type} (temp : List α) (i : Int) : Option α :=
  if 0 ≤ i then temp[i.toNat]? else none

/-- The value `INT_MAX` of a 32-bit `int`. -/
def INT_MAX : Nat := 2147483647

/-- The conversion of a `size_t` value to `int`, as in `int n = temp.size()`:
a 32-bit two's complement `int` receives the value modulo `2^32`, taken
between `-2^31` and `2^31 - 1`. -/
def toInt (n : Nat) : Int :=
  if n % 4294967296 < 2147483648 then ((n % 4294967296 : Nat) : Int)
  else ((n % 4294967296 : Nat) : Int) - 4294967296

/-! ## The container -/

/-- The exceptions the class throws. -/
inductive Exception where
  | runtime_error (what : String)
  deriving DecidableEq, Repr

/-- The class `MyContainer<T>`: its only data member is `elements`. -/
structure MyContainer (α : Type) where
  elements : List α
  deriving DecidableEq, Repr

namespace MyContainer

variable {α : Type}

/-- The default constructor `MyContainer()`: an empty container. -/
def empty : MyContainer α :=
  { elements := [] }

/-- The member `add`: `elements.push_back(element)`. -/
def add (c : MyContainer α) (element : α) : MyContainer α :=
  { elements := c.elements ++ [element] }

/-- The member `size`: `elements.size()`. -/
def size (c : MyContainer α) : Nat :=
  c.elements.length

/-- The member `remove`: erase-remove on `elements`, then throw when the size
did not change. The second component is the container after the call,
whether or not the call threw. -/
def remove [DecidableEq α] (c : MyContainer α) (element : α) :
    Except Exception Unit × MyContainer α :=
  let initial_size := c.elements.length
  let c1 : MyContainer α := { elements := std_remove c.elements element }
  if c1.elements.length = initial_size then
    (Except.error (Exception.runtime_error "Element not found in container"), c1)
  else
    (Except.ok (), c1)

end MyContainer

/-! ## Iterators -/

/-- The class `BaseIterator`: the materialized view and the position in it.
The six derived iterator classes add no data member. -/
structure BaseIterator (α : Type) where
  sorted_elements : List α
  index : Nat
  deriving DecidableEq, Repr

namespace BaseIterator

variable {α : Type}

/-- The comparison `operator==`: equal positions. -/
def eq (a b : BaseIterator α) : Bool :=
  a.index == b.index

/-- The comparison `operator!=`: the negation of `operator==`. -/
def ne (a b : BaseIterator α) : Bool :=
  !(a.eq b)

/-- The dereference `operator*`, read with a checked index. -/
def deref (it : BaseIterator α) : Option α :=
  it.sorted_elements[it.index]?

/-- The pre-increment `operator++()` of every derived iterator. -/
def preIncrement (it : BaseIterator α) : BaseIterator α :=
  { it with index := it.index + 1 }

end BaseIterator

variable {α : Type}

/-- The constructor `AscendingIterator(container, end)`. -/
def AscendingIterator [LinearOrder α] (container : MyContainer α) (end_ : Bool := false) :
    BaseIterator α :=
  { sorted_elements := std_sort container.elements,
    index := if end_ then container.elements.length else 0 }

/-- The constructor `DescendingIterator(container, end)`. -/
def DescendingIterator [LinearOrder α] (container : MyContainer α) (end_ : Bool := false) :
    BaseIterator α :=
  { sorted_elements := std_sort_greater container.elements,
    index := if end_ then container.elements.length else 0 }

/-- The constructor `ReverseIterator(container, end)`. -/
def ReverseIterator (container : MyContainer α) (end_ : Bool := false) : BaseIterator α :=
  { sorted_elements := std_reverse container.elements,
    index := if end_ then container.elements.length else 0 }

/-- The constructor `OrderIterator(container, end)`. -/
def OrderIterator (container : MyContainer α) (end_ : Bool := false) : BaseIterator α :=
  { sorted_elements := container.elements,
    index := if end_ then container.elements.length else 0 }

/-- The loop `while (left <= right)` of the side-cross constructor, with
`out` the vector `sorted_elements` built so far. The first argument bounds
the number of iterations; the result is `none` when a read is out of range
or the bound is used up before the loop condition fails. -/
def sideCrossLoop (temp : List α) : Nat → Int → Int → List α → Option (List α)
  | 0, left, right, out => if left ≤ right then none else some out
  | fuel + 1, left, right, out =>
    if left ≤ right then
      match readAt temp left with
      | none => none
      | some a =>
        if left + 1 ≤ right then
          match readAt temp right with
          | none => none
          | some b => sideCrossLoop temp fuel (left + 1) (right - 1) (out ++ [a] ++ [b])
        else sideCrossLoop temp fuel (left + 1) right (out ++ [a])
    else some out

/-- The body of the side-cross constructor that fills `sorted_elements`. -/
def sideCrossElements [LinearOrder α] (elements : List α) : Option (List α) :=
  if elements.isEmpty then some []
  else
    let temp := std_sort elements
    sideCrossLoop temp temp.length 0 (toInt (temp.length - 1)) []

/-- The constructor `SideCrossIterator(container, end)`. -/
def SideCrossIterator [LinearOrder α] (container : MyContainer α) (end_ : Bool := false) :
    Option (BaseIterator α) :=
  (sideCrossElements container.elements).map fun v =>
    { sorted_elements := v, index := if end_ then container.elements.length else 0 }

/-- The loop `while (left >= 0 || right < n)` of the middle-out constructor,
with `out` the vector `sorted_elements` built so far. The first argument
bounds the number of iterations; the result is `none` when a read is out of
range or the bound is used up before the loop condition fails. -/
def middleOutLoop (temp : List α) (n : Int) : Nat → Int → Int → List α → Option (List α)
  | 0, left, right, out => if 0 ≤ left ∨ right < n then none else some out
  | fuel + 1, left, right, out =>
    if 0 ≤ left ∨ right < n then
      let afterLeft : Option (List α × Int) :=
        if 0 ≤ left then (readAt temp left).map fun a => (out ++ [a], left - 1)
        else some (out, left)
      match afterLeft with
      | none => none
      | some (out1, left1) =>
        let afterRight : Option (List α × Int) :=
          if right < n then (readAt temp right).map fun b => (out1 ++ [b], right + 1)
          else some (out1, right)
        match afterRight with
        | none => none
        | some (out2, right2) => middleOutLoop temp n fuel left1 right2 out2
    else some out

/-- The body of the middle-out constructor that fills `sorted_elements`. -/
def middleOutElements (elements : List α) : Option (List α) :=
  if elements.isEmpty then some []
  else
    let temp := elements
    let n : Int := toInt temp.length
    let middle : Int := Int.tdiv n 2
    match readAt temp middle with
    | none => none
    | some m => middleOutLoop temp n temp.length (middle - 1) (middle + 1) [m]

/-- The constructor `MiddleOutIterator(container, end)`. -/
def MiddleOutIterator (container : MyContainer α) (end_ : Bool := false) :
    Option (BaseIterator α) :=
  (middleOutElements container.elements).map fun v =>
    { sorted_elements := v, index := if end_ then container.elements.length else 0 }

namespace MyContainer

/-- The member `begin_order`. -/
def begin_order (c : MyContainer α) : BaseIterator α := OrderIterator c
/-- The member `end_order`. -/
def end_order (c : MyContainer α) : BaseIterator α := OrderIterator c true
/-- The member `end`. -/
def end_ (c : MyContainer α) : BaseIterator α := OrderIterator c true
/-- The member `begin_ascending_order`. -/
def begin_ascending_order [LinearOrder α] (c : MyContainer α) : BaseIterator α :=
  AscendingIterator c
/-- The member `end_ascending_order`. -/
def end_ascending_order [LinearOrder α] (c : MyContainer α) : BaseIterator α :=
  AscendingIterator c true
/-- The member `begin_descending_order`. -/
def begin_descending_order [LinearOrder α] (c : MyContainer α) : BaseIterator α :=
  DescendingIterator c
/-- The member `end_descending_order`. -/
def end_descending_order [LinearOrder α] (c : MyContainer α) : BaseIterator α :=
  DescendingIterator c true
/-- The member `begin_side_cross_order`. -/
def begin_side_cross_order [LinearOrder α] (c : MyContainer α) : Option (BaseIterator α) :=
  SideCrossIterator c
/-- The member `end_side_cross_order`. -/
def end_side_cross_order [LinearOrder α] (c : MyContainer α) : Option (BaseIterator α) :=
  SideCrossIterator c true
/-- The member `begin_reverse_order`. -/
def begin_reverse_order (c : MyContainer α) : BaseIterator α := ReverseIterator c
/-- The member `end_reverse_order`. -/
def end_reverse_order (c : MyContainer α) : BaseIterator α := ReverseIterator c true
/-- The member `begin_middle_out_order`. -/
def begin_middle_out_order (c : MyContainer α) : Option (BaseIterator α) :=
  MiddleOutIterator c
/-- The member `end_middle_out_order`. -/
def end_middle_out_order (c : MyContainer α) : Option (BaseIterator α) :=
  MiddleOutIterator c true

end MyContainer

/-- A container with more than `INT_MAX` elements: `2^31 + 1 = 2147483649`
copies of 0, as left by that many calls `add(0)` on an empty
`MyContainer<int>`. -/
@[irreducible]
def overIntMax : MyContainer Int :=
  { elements := List.replicate 2147483649 0 }

/-! ## Call sequences -/

/-- A call of one of the two mutating members. -/
inductive Op (α : Type) where
  | add (element : α)
  | remove (element : α)
  deriving DecidableEq, Repr

namespace MyContainer

/-- The container after one call; an exception thrown by `remove` is caught
by the caller and the container lives on. -/
def step [DecidableEq α] (c : MyContainer α) : Op α → MyContainer α
  | Op.add x => c.add x
  | Op.remove x => (c.remove x).2

/-- The container after a sequence of calls, first call first. -/
def run [DecidableEq α] (c : MyContainer α) (ops : List (Op α)) : MyContainer α :=
  ops.foldl step c

/-- The number of elements a call has to delete when made on `c`, as the
specification counts them: a `remove(x)` that returns normally deletes every
stored element equal to `x`, so it counts the occurrences of `x` in the
storage before the call; a `remove` that throws and an `add` count
nothing. -/
def deletedBy [DecidableEq α] (c : MyContainer α) : Op α → Nat
  | Op.add _ => 0
  | Op.remove x =>
    match (c.remove x).1 with
    | Except.ok _ => c.elements.count x
    | Except.error _ => 0

/-- The total number of elements deleted by the `remove` calls of a sequence
of calls started on `c`. -/
def totalDeleted [DecidableEq α] (c : MyContainer α) : List (Op α) → Nat
  | [] => 0
  | op :: ops => deletedBy c op + totalDeleted (c.step op) ops

end MyContainer

/-- The number of `add` calls in a sequence of calls. -/
def numAdds : List (Op α) → Nat
  | [] => 0
  | Op.add _ :: ops => numAdds ops + 1
  | Op.remove _ :: ops => numAdds ops

/-- The loop `for (it = first; it != last; ++it) actual.push_back(*it)` the
callers run over a pair of iterators, with `actual` the values collected so
far. The first argument bounds the number of iterations; the result is
`none` when a dereference is out of range or the bound is used up. -/
def collect : Nat → BaseIterator α → BaseIterator α → List α → Option (List α)
  | 0, it, last, actual => if it.ne last then none else some actual
  | fuel + 1, it, last, actual =>
    if it.ne last then
      match it.deref with
      | none => none
      | some x => collect fuel it.preIncrement last (actual ++ [x])
    else some actual

/-! ## The six producers, writing through an iterator, printing -/

/-- The six pairs of producers `begin_..._order` / `end_..._order`. -/
inductive Producer where
  | order
  | ascending
  | descending
  | side_cross
  | reverse
  | middle_out
  deriving DecidableEq, Repr

namespace MyContainer

/-- The begin member of a producer pair. -/
def beginOf [LinearOrder α] (c : MyContainer α) : Producer → Option (BaseIterator α)
  | Producer.order => some c.begin_order
  | Producer.ascending => some c.begin_ascending_order
  | Producer.descending => some c.begin_descending_order
  | Producer.side_cross => c.begin_side_cross_order
  | Producer.reverse => some c.begin_reverse_order
  | Producer.middle_out => c.begin_middle_out_order

/-- The end member of a producer pair. -/
def endOf [LinearOrder α] (c : MyContainer α) : Producer → Option (BaseIterator α)
  | Producer.order => some c.end_order
  | Producer.ascending => some c.end_ascending_order
  | Producer.descending => some c.end_descending_order
  | Producer.side_cross => c.end_side_cross_order
  | Producer.reverse => some c.end_reverse_order
  | Producer.middle_out => c.end_middle_out_order

/-- The callers' traversal of one producer pair: the loop `collect` run from
the begin iterator to the end iterator. -/
def traverse [LinearOrder α] (c : MyContainer α) (kind : Producer) : Option (List α) :=
  match c.beginOf kind, c.endOf kind with
  | some first, some last => collect c.size first last []
  | _, _ => none

end MyContainer

namespace BaseIterator

/-- The assignment `*it = x`: `operator*` returns a reference to
`sorted_elements[index]`, an element of the iterator's own vector, and the
assignment stores `x` there; `none` when the position is out of range. -/
def assign (it : BaseIterator α) (x : α) : Option (BaseIterator α) :=
  if it.index < it.sorted_elements.length then
    some { it with sorted_elements := it.sorted_elements.set it.index x }
  else none

end BaseIterator

/-- The objects of a caller: a container and an iterator. The iterator
constructor copies the vector (`sorted_elements(elems)`), so the two objects
have separate storage. -/
structure Caller (α : Type) where
  container : MyContainer α
  it : BaseIterator α
  deriving DecidableEq, Repr

/-- The statement `*it = x` executed by a caller. -/
def Caller.assign (s : Caller α) (x : α) : Option (Caller α) :=
  (s.it.assign x).map fun it1 => { s with it := it1 }

/-- The loop `for (size_t i = 0; i < size; ++i)` of `operator<<`, from index
`i` on, with `os` the text written so far and `render` the text that
`os << element` writes. In the loop body `size` is at least 1, so the
`size_t` value `size - 1` does not wrap. The first argument bounds the
number of iterations; the result is `none` when a read is out of range or
the bound is used up. -/
def outputLoop (render : α → String) (elements : List α) : Nat → Nat → String → Option String
  | 0, i, os => if i < elements.length then none else some os
  | fuel + 1, i, os =>
    if i < elements.length then
      match elements[i]? with
      | none => none
      | some e =>
        let os1 := os ++ render e
        let os2 := if i < elements.length - 1 then os1 ++ ", " else os1
        outputLoop render elements fuel (i + 1) os2
    else some os

/-- The friend `operator<<(os, container)`: the text of the stream after the
call, given the text `os` before it. -/
def MyContainer.output (render : α → String) (os : String) (c : MyContainer α) : Option String :=
  (outputLoop render c.elements c.elements.length 0 (os ++ "[")).map fun os1 => os1 ++ "]"

/-! ## Post-increment, reading calls, and the reads of the two loops -/

/-- The post-increment `operator++(int)` of every derived iterator:
`temp = *this; ++(*this); return temp`. The first component is the returned
copy, the second the iterator after the call. -/
def BaseIterator.postIncrement (it : BaseIterator α) : BaseIterator α × BaseIterator α :=
  let temp := it
  (temp, it.preIncrement)

/-- The two objects a constructor call works on: the container it receives
by reference (`MyContainer& container`) and the iterator under construction
(`*this`). -/
structure Construction (α : Type) where
  container : MyContainer α
  self : BaseIterator α
  deriving DecidableEq, Repr

namespace Construction

/-- The member initialisers `sorted_elements(elems), index(idx)` of
`BaseIterator(elems, idx)`: the iterator gets a vector of its own with a
copy of `elems`. -/
def base (container : MyContainer α) (elems : List α) (idx : Nat) : Construction α :=
  { container := container, self := { sorted_elements := elems, index := idx } }

/-- A statement that gives `this->sorted_elements` new contents
(`std::sort`, `std::reverse`, or `clear` and the `push_back`s of a loop). -/
def setSorted (s : Construction α) (v : List α) : Construction α :=
  { s with self := { s.self with sorted_elements := v } }

/-- The constructor `OrderIterator(container, end)` run on the container. -/
def order (container : MyContainer α) (end_ : Bool) : Construction α :=
  base container container.elements (if end_ then container.elements.length else 0)

/-- The constructor `AscendingIterator(container, end)` run on the
container. -/
def ascending [LinearOrder α] (container : MyContainer α) (end_ : Bool) : Construction α :=
  let s := base container container.elements (if end_ then container.elements.length else 0)
  s.setSorted (std_sort s.self.sorted_elements)

/-- The constructor `DescendingIterator(container, end)` run on the
container. -/
def descending [LinearOrder α] (container : MyContainer α) (end_ : Bool) : Construction α :=
  let s := base container container.elements (if end_ then container.elements.length else 0)
  s.setSorted (std_sort_greater s.self.sorted_elements)

/-- The constructor `ReverseIterator(container, end)` run on the container. -/
def reverse (container : MyContainer α) (end_ : Bool) : Construction α :=
  let s := base container container.elements (if end_ then container.elements.length else 0)
  s.setSorted (std_reverse s.self.sorted_elements)

/-- The constructor `SideCrossIterator(container, end)` run on the
container: the base is built from an empty vector, the body reads
`container.elements` and fills `this->sorted_elements`. -/
def side_cross [LinearOrder α] (container : MyContainer α) (end_ : Bool) :
    Option (Construction α) :=
  let s := base container [] (if end_ then container.elements.length else 0)
  (sideCrossElements s.container.elements).map s.setSorted

/-- The constructor `MiddleOutIterator(container, end)` run on the
container: the base is built from an empty vector, the body reads
`container.elements` and fills `this->sorted_elements`. -/
def middle_out (container : MyContainer α) (end_ : Bool) : Option (Construction α) :=
  let s := base container [] (if end_ then container.elements.length else 0)
  (middleOutElements s.container.elements).map s.setSorted

end Construction

namespace MyContainer

end MyContainer

/-- The loop of the side-cross constructor as in `sideCrossLoop`, which
also records in `reads` every index at which `temp` is read, in the order of
the reads. -/
def sideCrossLoopReads (temp : List α) :
    Nat → Int → Int → List α → List Int → Option (List α) × List Int
  | 0, left, right, out, reads => (if left ≤ right then none else some out, reads)
  | fuel + 1, left, right, out, reads =>
    if left ≤ right then
      match readAt temp left with
      | none => (none, reads ++ [left])
      | some a =>
        if left + 1 ≤ right then
          match readAt temp right with
          | none => (none, reads ++ [left] ++ [right])
          | some b =>
            sideCrossLoopReads temp fuel (left + 1) (right - 1) (out ++ [a] ++ [b])
              (reads ++ [left] ++ [right])
        else sideCrossLoopReads temp fuel (left + 1) right (out ++ [a]) (reads ++ [left])
    else (some out, reads)

/-- The body of the side-cross constructor as in `sideCrossElements`,
together with the indices at which `temp` is read. -/
def sideCrossElementsReads [LinearOrder α] (elements : List α) : Option (List α) × List Int :=
  if elements.isEmpty then (some [], [])
  else
    let temp := std_sort elements
    sideCrossLoopReads temp temp.length 0 (toInt (temp.length - 1)) [] []

/-- The loop of the middle-out constructor as in `middleOutLoop`, which
also records in `reads` every index at which `temp` is read, in the order of
the reads. -/
def middleOutLoopReads (temp : List α) (n : Int) :
    Nat → Int → Int → List α → List Int → Option (List α) × List Int
  | 0, left, right, out, reads => (if 0 ≤ left ∨ right < n then none else some out, reads)
  | fuel + 1, left, right, out, reads =>
    if 0 ≤ left ∨ right < n then
      let afterLeft : Option (List α × Int) × List Int :=
        if 0 ≤ left then
          ((readAt temp left).map fun a => (out ++ [a], left - 1), reads ++ [left])
        else (some (out, left), reads)
      match afterLeft with
      | (none, reads1) => (none, reads1)
      | (some (out1, left1), reads1) =>
        let afterRight : Option (List α × Int) × List Int :=
          if right < n then
            ((readAt temp right).map fun b => (out1 ++ [b], right + 1), reads1 ++ [right])
          else (some (out1, right), reads1)
        match afterRight with
        | (none, reads2) => (none, reads2)
        | (some (out2, right2), reads2) => middleOutLoopReads temp n fuel left1 right2 out2 reads2
    else (some out, reads)

/-- The body of the middle-out constructor as in `middleOutElements`,
together with the indices at which `temp` is read. -/
def middleOutElementsReads (elements : List α) : Option (List α) × List Int :=
  if elements.isEmpty then (some [], [])
  else
    let temp := elements
    let n : Int := toInt temp.length
    let middle : Int := Int.tdiv n 2
    match readAt temp middle with
    | none => (none, [middle])
    | some m => middleOutLoopReads temp n temp.length (middle - 1) (middle + 1) [m] [middle]

/-! ## Facts about the library algorithms -/

theorem std_remove_eq_filter [DecidableEq α] (v : List α) (value : α) :
    std_remove v value = v.filter (fun x => decide (x ≠ value)) := by
  induction v with
  | nil => rfl
  | cons x xs ih =>
    by_cases h : x = value
    · simp [std_remove, h, ih]
    · simp [std_remove, h, ih]

theorem length_std_remove_add_count [DecidableEq α] (v : List α) (value : α) :
    (std_remove v value).length + v.count value = v.length := by
  induction v with
  | nil => rfl
  | cons x xs ih =>
    by_cases h : x = value
    · simp [std_remove, h]
      omega
    · simp [std_remove, h, List.count_cons]
      omega

theorem std_remove_eq_self_iff [DecidableEq α] (v : List α) (value : α) :
    (std_remove v value).length = v.length ↔ v.count value = 0 := by
  have h := length_std_remove_add_count v value
  omega

theorem std_remove_of_count_eq_zero [DecidableEq α] (v : List α) (value : α)
    (h : v.count value = 0) : std_remove v value = v := by
  rw [std_remove_eq_filter, List.filter_eq_self]
  intro a ha
  have hne : a ≠ value := by
    rintro rfl
    exact (List.count_pos_iff.mpr ha).ne (Eq.symm h)
  simpa using hne

theorem count_std_remove_self [DecidableEq α] (v : List α) (value : α) :
    (std_remove v value).count value = 0 := by
  rw [std_remove_eq_filter, List.count_eq_zero]
  intro hmem
  simpa using (List.mem_filter.mp hmem).2

theorem count_std_remove_of_ne [DecidableEq α] (v : List α) (value w : α) (h : w ≠ value) :
    (std_remove v value).count w = v.count w := by
  rw [std_remove_eq_filter, List.count_filter]
  simpa using h

theorem std_remove_sublist [DecidableEq α] (v : List α) (value : α) :
    (std_remove v value).Sublist v := by
  rw [std_remove_eq_filter]
  exact List.filter_sublist v

/-! ## The member `remove` -/

/-- Claim C1: when `v` occurs exactly `k > 0` times in the collection,
`remove(v)` returns normally, the size afterwards is the old size minus `k`
(and the old size is the new size plus `k`), and `v` no longer occurs. -/
theorem remove_all_occurrences [DecidableEq α] (c : MyContainer α) (v : α) (k : Nat)
    (hk : c.elements.count v = k) (hpos : 0 < k) :
    (c.remove v).1 = Except.ok () ∧
      (c.remove v).2.size = c.size - k ∧
      (c.remove v).2.size + k = c.size ∧
      (c.remove v).2.elements.count v = 0 := by
  have hlen := length_std_remove_add_count c.elements v
  have hne : ¬ (std_remove c.elements v).length = c.elements.length := by omega
  refine ⟨?_, ?_, ?_, ?_⟩
  · simp [MyContainer.remove, hne]
  · simp [MyContainer.remove, hne, MyContainer.size]
    omega
  · simp [MyContainer.remove, hne, MyContainer.size]
    omega
  · simp [MyContainer.remove, hne, count_std_remove_self]

theorem remove_all_occurrences_witness :
    (MyContainer.mk [5, 10, 5, 5]).elements.count 5 = 3 ∧ 0 < 3 ∧
      (((MyContainer.mk [5, 10, 5, 5]).remove 5).1 = Except.ok () ∧
        ((MyContainer.mk [5, 10, 5, 5]).remove 5).2.size = (MyContainer.mk [5, 10, 5, 5]).size - 3 ∧
        ((MyContainer.mk [5, 10, 5, 5]).remove 5).2.size + 3 = (MyContainer.mk [5, 10, 5, 5]).size ∧
        ((MyContainer.mk [5, 10, 5, 5]).remove 5).2.elements.count 5 = 0) :=
  ⟨by decide, by decide, remove_all_occurrences (MyContainer.mk [5, 10, 5, 5]) 5 3 (by decide) (by decide)⟩

/-- Claim C2: `remove(v)` throws `std::runtime_error` exactly when `v` does
not occur in the collection, it throws nothing else, and a call that throws
leaves the collection as it was. -/
theorem remove_throws_iff_absent [DecidableEq α] (c : MyContainer α) (v : α) :
    ((c.remove v).1 = Except.error (Exception.runtime_error "Element not found in container") ↔
        c.elements.count v = 0) ∧
      ((c.remove v).1 ≠ Except.ok () ↔ c.elements.count v = 0) ∧
      ((c.remove v).1 ≠ Except.ok () →
        (c.remove v).2 = c ∧ (c.remove v).2.size = c.size ∧
          (c.remove v).2.elements = c.elements) := by
  have hiff := std_remove_eq_self_iff c.elements v
  by_cases h : (std_remove c.elements v).length = c.elements.length
  · have h0 := hiff.mp h
    have hsame := std_remove_of_count_eq_zero c.elements v h0
    refine ⟨?_, ?_, ?_⟩
    · simp [MyContainer.remove, h, h0]
    · simp [MyContainer.remove, h, h0]
    · intro _
      simp [MyContainer.remove, h, hsame, MyContainer.size]
  · have h0 : ¬ c.elements.count v = 0 := fun e => h (hiff.mpr e)
    refine ⟨?_, ?_, ?_⟩
    · simp [MyContainer.remove, h, h0]
    · simp [MyContainer.remove, h, h0]
    · intro hne
      simp [MyContainer.remove, h] at hne

theorem remove_throws_iff_absent_witness :
    ((MyContainer.mk [5]).remove 10).2 = MyContainer.mk [5] ∧
      ((MyContainer.mk [5]).remove 10).2.size = (MyContainer.mk [5]).size ∧
      ((MyContainer.mk [5]).remove 10).2.elements = (MyContainer.mk [5]).elements :=
  (remove_throws_iff_absent (MyContainer.mk [5]) 10).2.2
    (((remove_throws_iff_absent (MyContainer.mk [5]) 10).2.1).mpr (by decide))

/-- Claim C3: when `v` occurs in the collection, `remove(v)` returns normally
and the storage afterwards is the old storage with every element equal to
`v` deleted: the other elements keep their multiplicities and their relative
order; for instance `[10, 20, 10, 30]` becomes `[20, 30]`. -/
theorem remove_keeps_others_in_order [DecidableEq α] (c : MyContainer α) (v : α)
    (hv : v ∈ c.elements) :
    (c.remove v).1 = Except.ok () ∧
      (c.remove v).2.elements = c.elements.filter (fun x => decide (x ≠ v)) ∧
      (∀ w, w ≠ v → (c.remove v).2.elements.count w = c.elements.count w) ∧
      (c.remove v).2.elements.Sublist c.elements ∧
      ((MyContainer.mk [(10 : Int), 20, 10, 30]).remove 10).2.elements = [20, 30] := by
  have hpos : 0 < c.elements.count v := List.count_pos_iff.mpr hv
  have hlen := length_std_remove_add_count c.elements v
  have hne : ¬ (std_remove c.elements v).length = c.elements.length := by omega
  refine ⟨?_, ?_, ?_, ?_, ?_⟩
  · simp [MyContainer.remove, hne]
  · simp only [MyContainer.remove, hne, if_false]
    exact std_remove_eq_filter c.elements v
  · intro w hw
    simp only [MyContainer.remove, hne, if_false]
    exact count_std_remove_of_ne c.elements v w hw
  · simp only [MyContainer.remove, hne, if_false]
    exact std_remove_sublist c.elements v
  · decide

theorem remove_keeps_others_in_order_witness :
    (2 : Int) ∈ (MyContainer.mk [(1 : Int), 2, 3, 2, 4]).elements ∧
      ((MyContainer.mk [(1 : Int), 2, 3, 2, 4]).remove 2).2.elements =
        (MyContainer.mk [(1 : Int), 2, 3, 2, 4]).elements.filter (fun x => decide (x ≠ 2)) :=
  ⟨by decide, (remove_keeps_others_in_order (MyContainer.mk [(1 : Int), 2, 3, 2, 4]) 2 (by decide)).2.1⟩

/-! ## Call sequences and the canonical storage -/

theorem run_cons [DecidableEq α] (c : MyContainer α) (op : Op α) (ops : List (Op α)) :
    c.run (op :: ops) = (c.step op).run ops := rfl

theorem run_adds_elements [DecidableEq α] (xs : List α) (c : MyContainer α) :
    (c.run (xs.map Op.add)).elements = c.elements ++ xs := by
  induction xs generalizing c with
  | nil => simp [MyContainer.run]
  | cons x xs ih =>
    rw [List.map_cons, run_cons, ih]
    simp [MyContainer.step, MyContainer.add]

theorem step_size_add_deleted [DecidableEq α] (c : MyContainer α) (op : Op α) :
    (c.step op).size + c.deletedBy op = c.size + numAdds [op] := by
  cases op with
  | add x => simp [MyContainer.step, MyContainer.add, MyContainer.deletedBy, MyContainer.size, numAdds]
  | remove x =>
    have hlen := length_std_remove_add_count c.elements x
    by_cases h : (std_remove c.elements x).length = c.elements.length
    · simp [MyContainer.step, MyContainer.deletedBy, MyContainer.remove, MyContainer.size, numAdds, h]
    · simp only [MyContainer.step, MyContainer.deletedBy, MyContainer.remove, MyContainer.size,
        numAdds, h, if_false]
      omega

theorem numAdds_cons (op : Op α) (ops : List (Op α)) :
    numAdds (op :: ops) = numAdds [op] + numAdds ops := by
  cases op <;> simp [numAdds, Nat.add_comm]

theorem run_size_add_deleted [DecidableEq α] (ops : List (Op α)) (c : MyContainer α) :
    (c.run ops).size + c.totalDeleted ops = c.size + numAdds ops := by
  induction ops generalizing c with
  | nil => simp [MyContainer.run, MyContainer.totalDeleted, numAdds]
  | cons op ops ih =>
    have h1 := ih (c.step op)
    have h2 := step_size_add_deleted c op
    rw [run_cons, numAdds_cons]
    simp only [MyContainer.totalDeleted]
    omega

theorem collect_drop (v w : List α) (n : Nat) (hn : v.length = n) :
    ∀ (fuel i : Nat) (actual : List α), i ≤ n → n - i ≤ fuel →
      collect fuel (BaseIterator.mk v i) (BaseIterator.mk w n) actual = some (actual ++ v.drop i) := by
  intro fuel
  induction fuel with
  | zero =>
    intro i actual hi hf
    have hin : i = n := by omega
    subst hin
    simp [collect, BaseIterator.ne, BaseIterator.eq, ← hn]
  | succ fuel ih =>
    intro i actual hi hf
    by_cases hin : i = n
    · subst hin
      simp [collect, BaseIterator.ne, BaseIterator.eq, ← hn]
    · have hlt : i < v.length := by omega
      have hget : v[i]? = some v[i] := List.getElem?_eq_getElem hlt
      simp only [collect, BaseIterator.ne, BaseIterator.eq, BaseIterator.deref,
        BaseIterator.preIncrement, hget]
      have hb : (!i == n) = true := by simp [hin]
      rw [if_pos hb]
      rw [ih (i + 1) (actual ++ [v[i]]) (by omega) (by omega)]
      rw [List.append_assoc, List.singleton_append, ← List.drop_eq_getElem_cons hlt]

/-! ## The sorted views, the reverse view and the insertion-order view -/

/-- Claim C6: the ascending view is in non-decreasing order and is a
permutation of the storage (every value has the same number of occurrences);
when the storage is already in non-decreasing order the view equals it, in
particular after adding `0, 1, ..., n-1` in this order. -/
theorem ascending_sorted_perm [LinearOrder α] (c : MyContainer α) :
    c.begin_ascending_order.sorted_elements.Sorted (fun a b => a ≤ b) ∧
      c.begin_ascending_order.sorted_elements.Perm c.elements ∧
      (∀ a, c.begin_ascending_order.sorted_elements.count a = c.elements.count a) ∧
      (c.elements.Sorted (fun a b => a ≤ b) →
        c.begin_ascending_order.sorted_elements = c.elements) ∧
      (∀ n : Nat,
        ((MyContainer.empty.run ((List.range n).map Op.add)).begin_ascending_order).sorted_elements
            = List.range n ∧
          (MyContainer.empty.run ((List.range n).map Op.add)).elements = List.range n) := by
  have hperm : (std_sort c.elements).Perm c.elements := List.perm_insertionSort _ _
  refine ⟨?_, hperm, ?_, ?_, ?_⟩
  · exact List.sorted_insertionSort (fun a b => a ≤ b) c.elements
  · intro a
    exact hperm.count_eq a
  · intro hs
    exact List.Sorted.insertionSort_eq hs
  · intro n
    have hel : (MyContainer.empty.run ((List.range n).map Op.add)).elements = List.range n := by
      rw [run_adds_elements]
      rfl
    refine ⟨?_, hel⟩
    show std_sort _ = _
    rw [hel]
    exact List.Sorted.insertionSort_eq (List.sorted_le_range n)

theorem ascending_sorted_perm_witness :
    (MyContainer.mk [1, 2, 6]).begin_ascending_order.sorted_elements
      = (MyContainer.mk [1, 2, 6]).elements :=
  (ascending_sorted_perm (MyContainer.mk [1, 2, 6])).2.2.2.1 (by decide)

/-- Claim C7: the descending view is in non-increasing order and is a
permutation of the storage (every value has the same number of
occurrences). -/
theorem descending_sorted_perm [LinearOrder α] (c : MyContainer α) :
    c.begin_descending_order.sorted_elements.Sorted (fun a b => a ≥ b) ∧
      c.begin_descending_order.sorted_elements.Perm c.elements ∧
      (∀ a, c.begin_descending_order.sorted_elements.count a = c.elements.count a) := by
  have hperm : (std_sort_greater c.elements).Perm c.elements := List.perm_insertionSort _ _
  refine ⟨?_, hperm, ?_⟩
  · exact List.sorted_insertionSort (fun a b : α => a ≥ b) c.elements
  · intro a
    exact hperm.count_eq a

/-- Claim C8: the reverse view is the storage reversed: it has `size()`
elements and its element at position `i` is the storage element at position
`size() - 1 - i`, for every `i < size()`. -/
theorem reverse_view_positions (c : MyContainer α) :
    c.begin_reverse_order.sorted_elements = c.elements.reverse ∧
      c.begin_reverse_order.sorted_elements.length = c.size ∧
      (∀ i, i < c.size →
        ∃ x, c.begin_reverse_order.sorted_elements[i]? = some x ∧
          c.elements[c.size - 1 - i]? = some x) := by
  refine ⟨rfl, ?_, ?_⟩
  · simp [MyContainer.begin_reverse_order, ReverseIterator, std_reverse, MyContainer.size]
  · intro i hi
    have hi2 : c.size - 1 - i < c.elements.length := by
      simp only [MyContainer.size] at hi ⊢
      omega
    refine ⟨c.elements[c.size - 1 - i], ?_, List.getElem?_eq_getElem hi2⟩
    show c.elements.reverse[i]? = _
    rw [List.getElem?_reverse hi]
    exact List.getElem?_eq_getElem hi2

theorem reverse_view_positions_witness :
    ∃ x, (MyContainer.mk [7, 15, 6, 1, 2]).begin_reverse_order.sorted_elements[1]? = some x ∧
      (MyContainer.mk [7, 15, 6, 1, 2]).elements[(MyContainer.mk [7, 15, 6, 1, 2]).size - 1 - 1]?
        = some x :=
  (reverse_view_positions (MyContainer.mk [7, 15, 6, 1, 2])).2.2 1 (by decide)

/-- Claim C10: after any sequence of `add` and `remove` calls on an empty
container, `size()` is the number of `add` calls minus the number of
elements deleted by the `remove` calls that returned normally, where a
`remove(v)` that returns normally deletes as many elements as `v` occurred
in the storage; a `remove` that throws deletes nothing. After the calls
add 5, add 10, add 5, add 5, remove 5 that is `4 - 3 = 1`. -/
theorem size_is_adds_minus_deleted [DecidableEq α] (ops : List (Op α)) :
    (MyContainer.empty.run ops).size = numAdds ops - MyContainer.empty.totalDeleted ops ∧
      (MyContainer.empty.run ops).size + MyContainer.empty.totalDeleted ops = numAdds ops ∧
      (∀ (c : MyContainer α) (v : α), (c.remove v).1 = Except.ok () →
        c.deletedBy (Op.remove v) = c.elements.count v ∧
          (c.step (Op.remove v)).size + c.elements.count v = c.size) ∧
      (∀ (c : MyContainer α) (v : α), (c.remove v).1 ≠ Except.ok () →
        c.deletedBy (Op.remove v) = 0 ∧ (c.step (Op.remove v)).size = c.size) ∧
      ((MyContainer.empty.run
            [Op.add (5 : Int), Op.add 10, Op.add 5, Op.add 5, Op.remove 5]).size = 1 ∧
        numAdds [Op.add (5 : Int), Op.add 10, Op.add 5, Op.add 5, Op.remove 5] = 4 ∧
        MyContainer.empty.totalDeleted
            [Op.add (5 : Int), Op.add 10, Op.add 5, Op.add 5, Op.remove 5] = 3) := by
  have h := run_size_add_deleted ops (MyContainer.empty : MyContainer α)
  have h0 : (MyContainer.empty : MyContainer α).size = 0 := rfl
  refine ⟨by omega, by omega, ?_, ?_, by decide⟩
  · intro c v hok
    have hlen := length_std_remove_add_count c.elements v
    by_cases hs : (std_remove c.elements v).length = c.elements.length
    · simp [MyContainer.remove, hs] at hok
    · refine ⟨?_, ?_⟩
      · simp [MyContainer.deletedBy, MyContainer.remove, hs]
      · simp only [MyContainer.step, MyContainer.remove, MyContainer.size, hs, if_false]
        exact hlen
  · intro c v hne
    by_cases hs : (std_remove c.elements v).length = c.elements.length
    · simp [MyContainer.deletedBy, MyContainer.step, MyContainer.remove, MyContainer.size, hs]
    · simp [MyContainer.remove, hs] at hne

theorem size_is_adds_minus_deleted_witness :
    ((MyContainer.mk [5, 10, 5, 5]).deletedBy (Op.remove 5) = List.count 5 [5, 10, 5, 5] ∧
        ((MyContainer.mk [5, 10, 5, 5]).step (Op.remove 5)).size + List.count 5 [5, 10, 5, 5]
          = (MyContainer.mk [5, 10, 5, 5]).size) ∧
      ((MyContainer.mk [5]).deletedBy (Op.remove 10) = 0 ∧
        ((MyContainer.mk [5]).step (Op.remove 10)).size = (MyContainer.mk [5]).size) :=
  ⟨(size_is_adds_minus_deleted ([] : List (Op Nat))).2.2.1 (MyContainer.mk [5, 10, 5, 5]) 5
      (by simp [MyContainer.remove, std_remove]),
    (size_is_adds_minus_deleted ([] : List (Op Nat))).2.2.2.1 (MyContainer.mk [5]) 10
      (by simp [MyContainer.remove, std_remove])⟩

/-! ## The side-cross view -/

theorem toInt_of_le_INT_MAX (n : Nat) (h : n ≤ INT_MAX) : toInt n = (n : Int) := by
  unfold INT_MAX at h
  unfold toInt
  split_ifs <;> omega

theorem overIntMax_elements : overIntMax.elements = List.replicate 2147483649 0 := by
  unfold overIntMax
  rfl

theorem overIntMax_length : overIntMax.elements.length = 2147483649 := by
  rw [overIntMax_elements]
  exact List.length_replicate _ _

theorem overIntMax_size : overIntMax.size = 2147483649 :=
  overIntMax_length

theorem overIntMax_built_by_adds :
    (MyContainer.empty.run ((List.replicate 2147483649 (0 : Int)).map Op.add)).elements
      = overIntMax.elements := by
  rw [run_adds_elements, overIntMax_elements]
  exact List.nil_append _

theorem sideCrossLoop_positions (s : List α) :
    ∀ (fuel k : Nat) (out : List α),
      out.length = 2 * k → 2 * k ≤ s.length → s.length ≤ 2 * k + 2 * fuel →
      (∀ i, 2 * i < out.length → out[2 * i]? = s[i]?) →
      (∀ i, 2 * i + 1 < out.length → out[2 * i + 1]? = s[s.length - 1 - i]?) →
      ∃ r, sideCrossLoop s fuel (k : Int) ((s.length : Int) - 1 - k) out = some r ∧
        r.length = s.length ∧
        (∀ i, 2 * i < s.length → r[2 * i]? = s[i]?) ∧
        (∀ i, 2 * i + 1 < s.length → r[2 * i + 1]? = s[s.length - 1 - i]?) := by
  intro fuel
  induction fuel with
  | zero =>
    intro k out hlen hk hf he ho
    have hn : s.length = 2 * k := by omega
    have hc : ¬ ((k : Int) ≤ (s.length : Int) - 1 - k) := by omega
    refine ⟨out, by simp [sideCrossLoop, hc], by omega, ?_, ?_⟩
    · intro i hi
      exact he i (by omega)
    · intro i hi
      exact ho i (by omega)
  | succ fuel ih =>
    intro k out hlen hk hf he ho
    by_cases hdone : s.length = 2 * k
    · have hc : ¬ ((k : Int) ≤ (s.length : Int) - 1 - k) := by omega
      refine ⟨out, by simp [sideCrossLoop, hc], by omega, ?_, ?_⟩
      · intro i hi
        exact he i (by omega)
      · intro i hi
        exact ho i (by omega)
    · have hlt : k < s.length := by omega
      have hcond : (k : Int) ≤ (s.length : Int) - 1 - k := by omega
      have hreadL : readAt s (k : Int) = some s[k] := by
        simp [readAt, List.getElem?_eq_getElem hlt]
      by_cases hodd : s.length = 2 * k + 1
      · have hc2 : ¬ ((k : Int) + 1 ≤ (s.length : Int) - 1 - k) := by omega
        have hfin : sideCrossLoop s fuel ((k : Int) + 1) ((s.length : Int) - 1 - k)
            (out ++ [s[k]]) = some (out ++ [s[k]]) := by
          cases fuel <;> simp [sideCrossLoop, hc2]
        refine ⟨out ++ [s[k]], ?_, ?_, ?_, ?_⟩
        · simp only [sideCrossLoop, hcond, if_true, hreadL, hc2, if_false]
          exact hfin
        · simp
          omega
        · intro i hi
          by_cases hik : i = k
          · subst hik
            rw [List.getElem?_append_right (by omega)]
            simp [hlen, List.getElem?_eq_getElem hlt]
          · rw [List.getElem?_append_left (by omega)]
            exact he i (by omega)
        · intro i hi
          rw [List.getElem?_append_left (by omega)]
          exact ho i (by omega)
      · have hc2 : (k : Int) + 1 ≤ (s.length : Int) - 1 - k := by omega
        have hrlt : s.length - 1 - k < s.length := by omega
        have hcast : (s.length : Int) - 1 - k = ((s.length - 1 - k : Nat) : Int) := by omega
        have hreadR : readAt s ((s.length : Int) - 1 - k) = some s[s.length - 1 - k] := by
          rw [hcast]
          simp [readAt, List.getElem?_eq_getElem hrlt]
        have e1 : (k : Int) + 1 = ((k + 1 : Nat) : Int) := by omega
        have e2 : (s.length : Int) - 1 - k - 1 = (s.length : Int) - 1 - ((k + 1 : Nat) : Int) := by
          omega
        have hstep := ih (k + 1) (out ++ [s[k]] ++ [s[s.length - 1 - k]])
          (by simp; omega) (by omega) (by omega)
          (by
            intro i hi
            simp only [List.length_append, List.length_singleton] at hi
            by_cases hik : i = k
            · subst hik
              rw [List.getElem?_append_left (by simp; omega),
                List.getElem?_append_right (by omega)]
              simp [hlen, List.getElem?_eq_getElem hlt]
            · rw [List.getElem?_append_left (by simp; omega),
                List.getElem?_append_left (by omega)]
              exact he i (by omega))
          (by
            intro i hi
            simp only [List.length_append, List.length_singleton] at hi
            by_cases hik : i = k
            · subst hik
              rw [List.getElem?_append_right (by simp; omega)]
              simp [hlen, List.getElem?_eq_getElem hrlt]
            · rw [List.getElem?_append_left (by simp; omega),
                List.getElem?_append_left (by omega)]
              exact ho i (by omega))
        obtain ⟨r, hr, hrest⟩ := hstep
        refine ⟨r, ?_, hrest⟩
        simp only [sideCrossLoop, hcond, if_true, hreadL, hc2, hreadR]
        rw [e1, e2]
        exact hr

theorem sideCrossElements_positions [LinearOrder α] (elements : List α)
    (hfit : elements.length ≤ INT_MAX) :
    ∃ r, sideCrossElements elements = some r ∧
      r.length = elements.length ∧
      (∀ i, 2 * i < elements.length → r[2 * i]? = (std_sort elements)[i]?) ∧
      (∀ i, 2 * i + 1 < elements.length →
        r[2 * i + 1]? = (std_sort elements)[elements.length - 1 - i]?) := by
  have hlen : (std_sort elements).length = elements.length := List.length_insertionSort _ _
  by_cases hempty : elements = []
  · subst hempty
    exact ⟨[], rfl, rfl, by simp, by simp⟩
  · have hne : elements.isEmpty = false := by
      cases elements with
      | nil => exact absurd rfl hempty
      | cons a l => rfl
    obtain ⟨r, hr, h1, h2, h3⟩ := sideCrossLoop_positions (std_sort elements)
      (std_sort elements).length 0 [] rfl (by omega) (by omega) (by simp) (by simp)
    have hconv : toInt ((std_sort elements).length - 1)
        = ((std_sort elements).length : Int) - 1 - ((0 : Nat) : Int) := by
      rw [toInt_of_le_INT_MAX _ (by omega)]
      have hpos : 1 ≤ (std_sort elements).length := by
        rw [hlen]
        cases elements with
        | nil => exact absurd rfl hempty
        | cons a l => simp
      omega
    refine ⟨r, ?_, by omega, ?_, ?_⟩
    · simp only [sideCrossElements, hne]
      rw [hconv]
      exact hr
    · intro i hi
      exact h2 i (by omega)
    · intro i hi
      rw [← hlen]
      exact h3 i (by omega)

/-- For a collection of at most `INT_MAX` elements, with `s` the elements in
non-decreasing order, the side-cross view has `size()` elements, its element
at position `2i` is `s[i]` and its element at position `2i+1` is
`s[size()-1-i]`; with at least two elements the first one is a minimum and
the second one a maximum of the collection. -/
theorem side_cross_alternates_within_int [LinearOrder α] (c : MyContainer α) (s : List α)
    (hfit : c.size ≤ INT_MAX)
    (hs : s.Sorted (fun a b => a ≤ b)) (hp : s.Perm c.elements) :
    ∃ it, c.begin_side_cross_order = some it ∧
      it.index = 0 ∧
      it.sorted_elements.length = c.size ∧
      (∀ i, 2 * i < c.size →
        ∃ x, it.sorted_elements[2 * i]? = some x ∧ s[i]? = some x) ∧
      (∀ i, 2 * i + 1 < c.size →
        ∃ x, it.sorted_elements[2 * i + 1]? = some x ∧ s[c.size - 1 - i]? = some x) ∧
      (2 ≤ c.size →
        ∃ lo hi, it.sorted_elements[0]? = some lo ∧ it.sorted_elements[1]? = some hi ∧
          lo ∈ c.elements ∧ hi ∈ c.elements ∧ ∀ y ∈ c.elements, lo ≤ y ∧ y ≤ hi) := by
  have hsort : std_sort c.elements = s :=
    List.eq_of_perm_of_sorted ((List.perm_insertionSort _ _).trans hp.symm)
      (List.sorted_insertionSort (fun a b => a ≤ b) c.elements) hs
  have hslen : s.length = c.elements.length := hp.length_eq
  obtain ⟨r, hr, hlen, heven, hodd⟩ := sideCrossElements_positions c.elements hfit
  rw [hsort] at heven hodd
  refine ⟨BaseIterator.mk r 0, ?_, rfl, hlen, ?_, ?_, ?_⟩
  · simp [MyContainer.begin_side_cross_order, SideCrossIterator, hr]
  · intro i hi
    have hi2 : i < s.length := by
      simp only [MyContainer.size] at hi
      omega
    exact ⟨s[i], by rw [← List.getElem?_eq_getElem hi2]; exact heven i hi,
      List.getElem?_eq_getElem hi2⟩
  · intro i hi
    have hi2 : c.size - 1 - i < s.length := by
      simp only [MyContainer.size] at hi ⊢
      omega
    exact ⟨s[c.size - 1 - i], by rw [← List.getElem?_eq_getElem hi2]; exact hodd i hi,
      List.getElem?_eq_getElem hi2⟩
  · intro h2
    simp only [MyContainer.size] at h2
    have h0 : 0 < s.length := by omega
    have hl : c.elements.length - 1 - 0 < s.length := by omega
    have e0 := heven 0 (by omega)
    have e1 := hodd 0 (by omega)
    refine ⟨s[0], s[c.elements.length - 1 - 0], ?_, ?_, ?_, ?_, ?_⟩
    · rw [← List.getElem?_eq_getElem h0]
      exact e0
    · rw [← List.getElem?_eq_getElem hl]
      exact e1
    · exact hp.mem_iff.mp (List.getElem_mem _)
    · exact hp.mem_iff.mp (List.getElem_mem _)
    · intro y hy
      obtain ⟨j, hj, rfl⟩ := List.getElem_of_mem (hp.mem_iff.mpr hy)
      constructor
      · exact hs.rel_get_of_le (a := ⟨0, h0⟩) (b := ⟨j, hj⟩) (Nat.zero_le j)
      · exact hs.rel_get_of_le (a := ⟨j, hj⟩) (b := ⟨c.elements.length - 1 - 0, hl⟩)
          (by show j ≤ c.elements.length - 1 - 0; omega)

theorem sideCrossLoop_exit (temp : List α) (fuel : Nat) (left right : Int) (out : List α)
    (h : ¬ left ≤ right) : sideCrossLoop temp fuel left right out = some out := by
  cases fuel <;> simp only [sideCrossLoop, h, if_false]

theorem sideCrossElements_of_negative_right [LinearOrder α] (elements : List α)
    (hpos : 0 < elements.length) (hneg : toInt (elements.length - 1) < 0) :
    sideCrossElements elements = some [] := by
  have hlen : (std_sort elements).length = elements.length := List.length_insertionSort _ _
  have hne : elements.isEmpty = false := by
    cases elements with
    | nil => simp at hpos
    | cons a l => rfl
  simp only [sideCrossElements, hne]
  rw [hlen]
  exact sideCrossLoop_exit _ _ _ _ _ (by omega)

theorem std_sort_replicate [LinearOrder α] (n : Nat) (a : α) :
    std_sort (List.replicate n a) = List.replicate n a := by
  rw [std_sort, List.eq_replicate_iff]
  refine ⟨by rw [List.length_insertionSort, List.length_replicate], ?_⟩
  intro b hb
  rw [List.mem_insertionSort] at hb
  exact List.eq_of_mem_replicate hb

theorem side_cross_iterators_of_elements [LinearOrder α] (c : MyContainer α) (v : List α)
    (h : sideCrossElements c.elements = some v) :
    c.begin_side_cross_order = some (BaseIterator.mk v 0) ∧
      c.end_side_cross_order = some (BaseIterator.mk v c.size) := by
  simp [MyContainer.begin_side_cross_order, MyContainer.end_side_cross_order, SideCrossIterator,
    MyContainer.size, h]

theorem overIntMax_side_cross :
    sideCrossElements overIntMax.elements = some [] :=
  sideCrossElements_of_negative_right overIntMax.elements
    (by rw [overIntMax_length]; decide) (by rw [overIntMax_length]; decide)

/-- Claim C4 fails on the program for a collection of `2^31 + 1` elements:
`int right = temp.size() - 1` receives `2^31` converted to `int`, which is
`-2^31`, so the loop body never runs and the side-cross view is empty.
Position 0 of the view holds no element, although the sorted sequence
begins with 0. -/
theorem side_cross_alternation_lost_beyond_int_max :
    overIntMax.size = 2147483649 ∧
      toInt (overIntMax.size - 1) = -2147483648 ∧
      overIntMax.begin_side_cross_order = some (BaseIterator.mk [] 0) ∧
      (std_sort overIntMax.elements)[0]? = some 0 ∧
      ¬ ∃ it x, overIntMax.begin_side_cross_order = some it ∧
          it.sorted_elements[2 * 0]? = some x ∧ (std_sort overIntMax.elements)[0]? = some x := by
  have hb : overIntMax.begin_side_cross_order = some (BaseIterator.mk [] 0) :=
    (side_cross_iterators_of_elements overIntMax [] overIntMax_side_cross).1
  refine ⟨overIntMax_size, ?_, hb, ?_, ?_⟩
  · rw [overIntMax_size]
    decide
  · rw [overIntMax_elements, std_sort_replicate, List.getElem?_replicate]
    decide
  · rintro ⟨it, x, hit, hx, -⟩
    rw [hb] at hit
    cases hit
    cases hx

/-! ## The middle-out view -/

theorem readAt_of_eq (l : List α) (z : Int) (i : Nat) (hz : z = (i : Int)) (hi : i < l.length) :
    readAt l z = some l[i] := by
  subst hz
  simp [readAt, List.getElem?_eq_getElem hi]

theorem middleOutLoop_positions (xs : List α) (m : Nat) (hm : m = xs.length / 2) :
    ∀ (fuel j : Nat) (out : List α),
      m + j + 1 ≤ xs.length → m ≤ j + fuel → out.length = 1 + 2 * j →
      out[0]? = xs[m]? →
      (∀ k, 1 ≤ k → k ≤ j → out[2 * k - 1]? = xs[m - k]?) →
      (∀ k, 1 ≤ k → k ≤ j → out[2 * k]? = xs[m + k]?) →
      ∃ r, middleOutLoop xs (xs.length : Int) fuel ((m : Int) - 1 - j) ((m : Int) + 1 + j) out
          = some r ∧
        r.length = xs.length ∧
        r[0]? = xs[m]? ∧
        (∀ k, 1 ≤ k → k ≤ m → r[2 * k - 1]? = xs[m - k]?) ∧
        (∀ k, 1 ≤ k → m + k < xs.length → r[2 * k]? = xs[m + k]?) := by
  intro fuel
  induction fuel with
  | zero =>
    intro j out hj hf hlen h0 hl hr
    have hc : ¬ (0 ≤ (m : Int) - 1 - j ∨ (m : Int) + 1 + j < (xs.length : Int)) := by omega
    refine ⟨out, by simp only [middleOutLoop, hc, if_false], by omega, h0, ?_, ?_⟩
    · intro k hk1 hk2
      exact hl k hk1 (by omega)
    · intro k hk1 hk2
      exact hr k hk1 (by omega)
  | succ fuel ih =>
    intro j out hj hf hlen h0 hl hr
    by_cases hjm : j = m
    · have hc : ¬ (0 ≤ (m : Int) - 1 - j ∨ (m : Int) + 1 + j < (xs.length : Int)) := by omega
      refine ⟨out, by simp only [middleOutLoop, hc, if_false], by omega, h0, ?_, ?_⟩
      · intro k hk1 hk2
        exact hl k hk1 (by omega)
      · intro k hk1 hk2
        exact hr k hk1 (by omega)
    · have hc : 0 ≤ (m : Int) - 1 - j ∨ (m : Int) + 1 + j < (xs.length : Int) := by omega
      have hcl : 0 ≤ (m : Int) - 1 - j := by omega
      have hllt : m - 1 - j < xs.length := by omega
      have hreadL : readAt xs ((m : Int) - 1 - j) = some xs[m - 1 - j] :=
        readAt_of_eq xs _ (m - 1 - j) (by omega) hllt
      by_cases hright : m + 1 + j < xs.length
      · have hcr : (m : Int) + 1 + j < (xs.length : Int) := by omega
        have hreadR : readAt xs ((m : Int) + 1 + j) = some xs[m + 1 + j] :=
          readAt_of_eq xs _ (m + 1 + j) (by omega) hright
        have e1 : (m : Int) - 1 - j - 1 = (m : Int) - 1 - ((j + 1 : Nat) : Int) := by omega
        have e2 : (m : Int) + 1 + j + 1 = (m : Int) + 1 + ((j + 1 : Nat) : Int) := by omega
        have hstep := ih (j + 1) (out ++ [xs[m - 1 - j]] ++ [xs[m + 1 + j]])
          (by omega) (by omega) (by simp; omega)
          (by
            rw [List.getElem?_append_left (by simp),
              List.getElem?_append_left (by omega)]
            exact h0)
          (by
            intro k hk1 hk2
            by_cases hkj : k = j + 1
            · subst hkj
              rw [List.getElem?_append_left (by simp; omega),
                List.getElem?_append_right (by omega)]
              have e : 2 * (j + 1) - 1 - out.length = 0 := by omega
              have e3 : m - (j + 1) = m - 1 - j := by omega
              simp [e, e3, List.getElem?_eq_getElem hllt]
            · rw [List.getElem?_append_left (by simp; omega),
                List.getElem?_append_left (by omega)]
              exact hl k hk1 (by omega))
          (by
            intro k hk1 hk2
            by_cases hkj : k = j + 1
            · subst hkj
              rw [List.getElem?_append_right (by simp; omega)]
              simp only [List.length_append, List.length_singleton]
              have e : 2 * (j + 1) - (out.length + 1) = 0 := by omega
              have e3 : m + (j + 1) = m + 1 + j := by omega
              rw [e, e3]
              simp [List.getElem?_eq_getElem hright]
            · rw [List.getElem?_append_left (by simp; omega),
                List.getElem?_append_left (by omega)]
              exact hr k hk1 (by omega))
        obtain ⟨r, hr1, hrest⟩ := hstep
        refine ⟨r, ?_, hrest⟩
        simp only [middleOutLoop, hc, if_true, hcl, hreadL, Option.map_some', hcr, hreadR]
        rw [e1, e2]
        exact hr1
      · have hcr : ¬ ((m : Int) + 1 + j < (xs.length : Int)) := by omega
        have hc2 : ¬ (0 ≤ (m : Int) - 1 - j - 1 ∨ (m : Int) + 1 + j < (xs.length : Int)) := by
          omega
        have hfin : middleOutLoop xs (xs.length : Int) fuel ((m : Int) - 1 - j - 1)
            ((m : Int) + 1 + j) (out ++ [xs[m - 1 - j]]) = some (out ++ [xs[m - 1 - j]]) := by
          cases fuel <;> simp only [middleOutLoop, hc2, if_false]
        refine ⟨out ++ [xs[m - 1 - j]], ?_, by simp; omega, ?_, ?_, ?_⟩
        · simp only [middleOutLoop, hc, if_true, hcl, hreadL, Option.map_some', hcr, if_false]
          exact hfin
        · rw [List.getElem?_append_left (by omega)]
          exact h0
        · intro k hk1 hk2
          by_cases hkj : k = j + 1
          · subst hkj
            rw [List.getElem?_append_right (by omega)]
            have e : 2 * (j + 1) - 1 - out.length = 0 := by omega
            have e3 : m - (j + 1) = m - 1 - j := by omega
            simp [e, e3, List.getElem?_eq_getElem hllt]
          · rw [List.getElem?_append_left (by omega)]
            exact hl k hk1 (by omega)
        · intro k hk1 hk2
          rw [List.getElem?_append_left (by omega)]
          exact hr k hk1 (by omega)

theorem middleOutElements_eq (xs : List α) (hne : xs.isEmpty = false) :
    middleOutElements xs =
      match readAt xs (Int.tdiv (toInt xs.length) 2) with
      | none => none
      | some m =>
        middleOutLoop xs (toInt xs.length) xs.length (Int.tdiv (toInt xs.length) 2 - 1)
          (Int.tdiv (toInt xs.length) 2 + 1) [m] := by
  unfold middleOutElements
  rw [hne]
  rfl

theorem middleOutElements_positions (xs : List α) (hpos : 1 ≤ xs.length)
    (hfit : xs.length ≤ INT_MAX) :
    ∃ r, middleOutElements xs = some r ∧
      r.length = xs.length ∧
      r[0]? = xs[xs.length / 2]? ∧
      (∀ k, 1 ≤ k → k ≤ xs.length / 2 → r[2 * k - 1]? = xs[xs.length / 2 - k]?) ∧
      (∀ k, 1 ≤ k → xs.length / 2 + k < xs.length → r[2 * k]? = xs[xs.length / 2 + k]?) := by
  have hne : xs.isEmpty = false := by
    cases xs with
    | nil => simp at hpos
    | cons a l => rfl
  have hmlt : xs.length / 2 < xs.length := by omega
  have hmid : Int.tdiv (xs.length : Int) 2 = ((xs.length / 2 : Nat) : Int) := by
    rw [Int.tdiv_eq_ediv (by omega) (by omega)]
    omega
  have hread : readAt xs (Int.tdiv (xs.length : Int) 2) = some xs[xs.length / 2] :=
    readAt_of_eq xs _ (xs.length / 2) hmid hmlt
  obtain ⟨r, hr, hrest⟩ := middleOutLoop_positions xs (xs.length / 2) rfl xs.length 0
    [xs[xs.length / 2]] (by omega) (by omega) rfl
    (by simp [List.getElem?_eq_getElem hmlt])
    (by intro k hk1 hk2; omega) (by intro k hk1 hk2; omega)
  have hconv := toInt_of_le_INT_MAX xs.length hfit
  refine ⟨r, ?_, hrest⟩
  rw [middleOutElements_eq xs hne, hconv, hread, hmid]
  simpa using hr

/-- For a collection of `n` elements, `1 ≤ n ≤ INT_MAX`, with storage `c` and
`m = n / 2`, the middle-out view has `n` elements, begins with `c[m]`, has
`c[m-k]` at position `2k-1` for `1 ≤ k ≤ m` and `c[m+k]` at position `2k`
for `k ≥ 1` with `m+k < n`; four elements `[a, b, c, d]` come out as
`c, b, d, a`. -/
theorem middle_out_positions_within_int (c : MyContainer α) (hn : 1 ≤ c.size)
    (hfit : c.size ≤ INT_MAX) :
    ∃ it, c.begin_middle_out_order = some it ∧
      it.index = 0 ∧
      it.sorted_elements.length = c.size ∧
      (∃ x, it.sorted_elements[0]? = some x ∧ c.elements[c.size / 2]? = some x) ∧
      (∀ k, 1 ≤ k → k ≤ c.size / 2 →
        ∃ x, it.sorted_elements[2 * k - 1]? = some x ∧ c.elements[c.size / 2 - k]? = some x) ∧
      (∀ k, 1 ≤ k → c.size / 2 + k < c.size →
        ∃ x, it.sorted_elements[2 * k]? = some x ∧ c.elements[c.size / 2 + k]? = some x) ∧
      (∀ a b c d : α,
        (MyContainer.mk [a, b, c, d]).begin_middle_out_order
          = some (BaseIterator.mk [c, b, d, a] 0)) := by
  obtain ⟨r, hr, hlen, h0, hl, hrt⟩ := middleOutElements_positions c.elements hn hfit
  simp only [MyContainer.size] at hn ⊢
  refine ⟨BaseIterator.mk r 0, ?_, rfl, hlen, ?_, ?_, ?_, ?_⟩
  · simp [MyContainer.begin_middle_out_order, MyContainer.size, MiddleOutIterator, hr]
  · have hlt : c.elements.length / 2 < c.elements.length := by omega
    exact ⟨_, by rw [← List.getElem?_eq_getElem hlt]; exact h0, List.getElem?_eq_getElem hlt⟩
  · intro k hk1 hk2
    have hlt : c.elements.length / 2 - k < c.elements.length := by omega
    exact ⟨_, by rw [← List.getElem?_eq_getElem hlt]; exact hl k hk1 hk2,
      List.getElem?_eq_getElem hlt⟩
  · intro k hk1 hk2
    exact ⟨_, by rw [← List.getElem?_eq_getElem hk2]; exact hrt k hk1 hk2,
      List.getElem?_eq_getElem hk2⟩
  · intro a b c d
    have h4 : toInt 4 = 4 := by decide
    simp [MyContainer.begin_middle_out_order, MiddleOutIterator, middleOutElements,
      middleOutLoop, readAt, Int.tdiv, h4]

theorem middleOutElements_of_negative_middle (xs : List α) (hpos : 0 < xs.length)
    (hneg : Int.tdiv (toInt xs.length) 2 < 0) : middleOutElements xs = none := by
  have hne : xs.isEmpty = false := by
    cases xs with
    | nil => simp at hpos
    | cons a l => rfl
  have hread : readAt xs (Int.tdiv (toInt xs.length) 2) = none := by
    unfold readAt
    rw [if_neg (by omega)]
  rw [middleOutElements_eq xs hne, hread]

theorem middle_out_iterators_of_elements (c : MyContainer α) (v : Option (List α))
    (h : middleOutElements c.elements = v) :
    c.begin_middle_out_order = v.map (fun l => BaseIterator.mk l 0) ∧
      c.end_middle_out_order = v.map (fun l => BaseIterator.mk l c.size) := by
  subst h
  exact ⟨rfl, rfl⟩

theorem overIntMax_middle_out : middleOutElements overIntMax.elements = none :=
  middleOutElements_of_negative_middle overIntMax.elements
    (by rw [overIntMax_length]; decide) (by rw [overIntMax_length]; decide)

/-- Claim C5 fails on the program for a collection of `2^31 + 1` elements:
`int n = temp.size()` receives `2^31 + 1` converted to `int`, which is
`-(2^31 - 1)`, so `middle = n / 2` is `-1073741823` and the first read
`temp[middle]` is out of range (undefined behaviour): the constructor
produces no view, although the storage has the element 0 at index
`size() / 2`. -/
theorem middle_out_undefined_beyond_int_max :
    overIntMax.size = 2147483649 ∧
      toInt overIntMax.size = -2147483647 ∧
      Int.tdiv (toInt overIntMax.size) 2 = -1073741823 ∧
      readAt overIntMax.elements (Int.tdiv (toInt overIntMax.size) 2) = none ∧
      overIntMax.begin_middle_out_order = none ∧
      overIntMax.elements[overIntMax.size / 2]? = some 0 := by
  refine ⟨overIntMax_size, ?_, ?_, ?_, ?_, ?_⟩
  · rw [overIntMax_size]
    decide
  · rw [overIntMax_size]
    decide
  · rw [overIntMax_size]
    unfold readAt
    rw [if_neg (by decide)]
  · exact (middle_out_iterators_of_elements overIntMax none overIntMax_middle_out).1
  · rw [overIntMax_size, overIntMax_elements, List.getElem?_replicate]
    decide

/-! ## The member `add` -/

/-- Claim C11: `add(x)` is a total operation; afterwards `size()` is the old
size plus one and the storage is the old storage followed by `x`, so every
old position keeps its element and the new last position holds `x`,
whether or not `x` was already stored. -/
theorem add_appends (c : MyContainer α) (x : α) :
    (c.add x).size = c.size + 1 ∧
      (c.add x).elements = c.elements ++ [x] ∧
      (∀ i, i < c.size → (c.add x).elements[i]? = c.elements[i]?) ∧
      (c.add x).elements[c.size]? = some x ∧
      (c.add x).elements.getLast? = some x := by
  refine ⟨?_, rfl, ?_, ?_, ?_⟩
  · simp [MyContainer.add, MyContainer.size]
  · intro i hi
    exact List.getElem?_append_left hi
  · simp [MyContainer.add, MyContainer.size]
  · simp [MyContainer.add]

theorem add_appends_witness :
    ((MyContainer.mk [1, 2]).add 2).elements[0]? = (MyContainer.mk [1, 2]).elements[0]? :=
  (add_appends (MyContainer.mk [1, 2]) 2).2.2.1 0 (by decide)

/-! ## Traversal between a begin and an end iterator -/

theorem collect_short (v w : List α) (n : Nat) (hn : v.length = n) :
    ∀ (fuel i : Nat) (actual : List α), i ≤ n → fuel < n - i →
      collect fuel (BaseIterator.mk v i) (BaseIterator.mk w n) actual = none := by
  intro fuel
  induction fuel with
  | zero =>
    intro i actual hi hf
    have hin : ¬ i = n := by omega
    simp [collect, BaseIterator.ne, BaseIterator.eq, hin]
  | succ fuel ih =>
    intro i actual hi hf
    have hin : ¬ i = n := by omega
    have hlt : i < v.length := by omega
    have hget : v[i]? = some v[i] := List.getElem?_eq_getElem hlt
    have hb : (!i == n) = true := by simp [hin]
    simp only [collect, BaseIterator.ne, BaseIterator.eq, BaseIterator.deref,
      BaseIterator.preIncrement, hget]
    rw [if_pos hb]
    exact ih (i + 1) (actual ++ [v[i]]) (by omega) (by omega)

theorem collect_full (v w : List α) (n : Nat) (hn : v.length = n) (fuel : Nat) :
    collect fuel (BaseIterator.mk v 0) (BaseIterator.mk w n) [] =
      if n ≤ fuel then some v else none := by
  by_cases h : n ≤ fuel
  · rw [if_pos h, collect_drop v w n hn fuel 0 [] (Nat.zero_le _) (by omega)]
    simp
  · rw [if_neg h]
    exact collect_short v w n hn fuel 0 [] (Nat.zero_le _) (by omega)

theorem iterate_preIncrement (it : BaseIterator α) (k : Nat) :
    BaseIterator.preIncrement^[k] it = BaseIterator.mk it.sorted_elements (it.index + k) := by
  induction k with
  | zero => rfl
  | succ k ih =>
    rw [Function.iterate_succ_apply', ih]
    rfl

theorem producer_views [LinearOrder α] (c : MyContainer α) (kind : Producer)
    (hfit : kind = Producer.side_cross ∨ kind = Producer.middle_out → c.size ≤ INT_MAX) :
    ∃ v : List α, v.length = c.size ∧
      c.beginOf kind = some (BaseIterator.mk v 0) ∧
      c.endOf kind = some (BaseIterator.mk v c.size) := by
  cases kind with
  | order => exact ⟨c.elements, rfl, rfl, rfl⟩
  | ascending => exact ⟨std_sort c.elements, List.length_insertionSort _ _, rfl, rfl⟩
  | descending => exact ⟨std_sort_greater c.elements, List.length_insertionSort _ _, rfl, rfl⟩
  | side_cross =>
    obtain ⟨r, hr, hlen, -, -⟩ := sideCrossElements_positions c.elements (hfit (Or.inl rfl))
    refine ⟨r, hlen, ?_, ?_⟩
    · simp [MyContainer.beginOf, MyContainer.begin_side_cross_order, SideCrossIterator, hr]
    · simp [MyContainer.endOf, MyContainer.end_side_cross_order, SideCrossIterator, hr,
        MyContainer.size]
  | reverse => exact ⟨std_reverse c.elements, List.length_reverse _, rfl, rfl⟩
  | middle_out =>
    have hex : ∃ r, middleOutElements c.elements = some r ∧ r.length = c.elements.length := by
      by_cases h : c.elements = []
      · rw [h]
        exact ⟨[], rfl, rfl⟩
      · have hpos : 1 ≤ c.elements.length := by
          cases hc : c.elements with
          | nil => exact absurd hc h
          | cons a l => simp
        obtain ⟨r, hr, hlen, -⟩ :=
          middleOutElements_positions c.elements hpos (hfit (Or.inr rfl))
        exact ⟨r, hr, hlen⟩
    obtain ⟨r, hr, hlen⟩ := hex
    refine ⟨r, hlen, ?_, ?_⟩
    · simp [MyContainer.beginOf, MyContainer.begin_middle_out_order, MiddleOutIterator, hr]
    · simp [MyContainer.endOf, MyContainer.end_middle_out_order, MiddleOutIterator, hr,
        MyContainer.size]

/-- For the insertion, ascending, descending and reverse producers, and for
the side-cross and middle-out producers on a collection of at most `INT_MAX`
elements: the begin iterator is at position 0 and the end iterator is at the
length of the view, which is `size()`; both carry the same view. After
`k < size()` advances the begin
iterator differs from the end iterator and dereferences position `k` of the
view; after `size()` advances it equals the end iterator. The loop from
begin to end runs exactly `size()` times and collects the view in order. -/
theorem producers_bound_traversal_within_int [LinearOrder α] (c : MyContainer α)
    (kind : Producer)
    (hfit : kind = Producer.side_cross ∨ kind = Producer.middle_out → c.size ≤ INT_MAX) :
    ∃ first last, c.beginOf kind = some first ∧ c.endOf kind = some last ∧
      first.index = 0 ∧
      last.index = first.sorted_elements.length ∧
      first.sorted_elements.length = c.size ∧
      last.sorted_elements = first.sorted_elements ∧
      (∀ k, k < c.size →
        (BaseIterator.preIncrement^[k] first).ne last = true ∧
          ∃ x, (BaseIterator.preIncrement^[k] first).deref = some x ∧
            first.sorted_elements[k]? = some x) ∧
      (BaseIterator.preIncrement^[c.size] first).eq last = true ∧
      (∀ fuel, collect fuel first last [] =
        if c.size ≤ fuel then some first.sorted_elements else none) ∧
      c.traverse kind = some first.sorted_elements := by
  obtain ⟨v, hlen, hb, he⟩ := producer_views c kind hfit
  refine ⟨BaseIterator.mk v 0, BaseIterator.mk v c.size, hb, he, rfl, hlen.symm, hlen, rfl,
    ?_, ?_, ?_, ?_⟩
  · intro k hk
    rw [iterate_preIncrement]
    have hk2 : k < v.length := by omega
    refine ⟨?_, v[k], ?_, List.getElem?_eq_getElem hk2⟩
    · have hne : ¬ k = c.size := by omega
      simp [BaseIterator.ne, BaseIterator.eq, hne]
    · simp [BaseIterator.deref, List.getElem?_eq_getElem hk2]
  · rw [iterate_preIncrement]
    simp [BaseIterator.eq]
  · intro fuel
    exact collect_full v v c.size hlen fuel
  · simp only [MyContainer.traverse, hb, he]
    rw [collect_full v v c.size hlen c.size]
    simp

theorem sideCrossLoop_total (s : List α) :
    ∀ (fuel L R : Nat) (out : List α), L ≤ R → R ≤ s.length → R ≤ L + 2 * fuel →
      ∃ r, sideCrossLoop s fuel (L : Int) ((R : Int) - 1) out = some r := by
  intro fuel
  induction fuel with
  | zero =>
    intro L R out hLR hR hf
    exact ⟨out, sideCrossLoop_exit _ _ _ _ _ (by omega)⟩
  | succ fuel ih =>
    intro L R out hLR hR hf
    by_cases hc : (L : Int) ≤ (R : Int) - 1
    · have hLlt : L < s.length := by omega
      have hreadL : readAt s (L : Int) = some s[L] := readAt_of_eq s _ L rfl hLlt
      by_cases hc2 : (L : Int) + 1 ≤ (R : Int) - 1
      · have hRlt : R - 1 < s.length := by omega
        have hreadR : readAt s ((R : Int) - 1) = some s[R - 1] :=
          readAt_of_eq s _ (R - 1) (by omega) hRlt
        have e1 : (L : Int) + 1 = ((L + 1 : Nat) : Int) := by omega
        have e2 : (R : Int) - 1 - 1 = ((R - 1 : Nat) : Int) - 1 := by omega
        simp only [sideCrossLoop, hc, if_true, hreadL, hc2, hreadR]
        rw [e1, e2]
        exact ih (L + 1) (R - 1) _ (by omega) (by omega) (by omega)
      · simp only [sideCrossLoop, hc, if_true, hreadL, hc2, if_false]
        exact ⟨_, sideCrossLoop_exit _ _ _ _ _ (by omega)⟩
    · exact ⟨out, sideCrossLoop_exit _ _ _ _ _ hc⟩

theorem sideCrossElements_total [LinearOrder α] (elements : List α) :
    ∃ r, sideCrossElements elements = some r := by
  have hlen : (std_sort elements).length = elements.length := List.length_insertionSort _ _
  cases helem : elements with
  | nil => exact ⟨[], rfl⟩
  | cons a t =>
    rw [← helem]
    have hne : elements.isEmpty = false := by rw [helem]; rfl
    have hpos : 1 ≤ elements.length := by rw [helem]; simp
    simp only [sideCrossElements, hne]
    rw [hlen]
    by_cases hneg : toInt (elements.length - 1) < 0
    · exact ⟨[], sideCrossLoop_exit _ _ _ _ _ (by omega)⟩
    · have hconv : toInt (elements.length - 1)
          = (((elements.length - 1) % 4294967296 + 1 : Nat) : Int) - 1 := by
        unfold toInt at hneg ⊢
        split_ifs at hneg ⊢ <;> omega
      have hle : (elements.length - 1) % 4294967296 ≤ elements.length - 1 :=
        Nat.mod_le _ _
      rw [hconv]
      exact sideCrossLoop_total (std_sort elements) elements.length 0
        ((elements.length - 1) % 4294967296 + 1) [] (Nat.zero_le _) (by omega) (by omega)

theorem producer_begin_exists [LinearOrder α] (c : MyContainer α) (kind : Producer)
    (hfit : kind = Producer.middle_out → c.size ≤ INT_MAX) :
    ∃ it, c.beginOf kind = some it := by
  cases kind with
  | order => exact ⟨_, rfl⟩
  | ascending => exact ⟨_, rfl⟩
  | descending => exact ⟨_, rfl⟩
  | side_cross =>
    obtain ⟨r, hr⟩ := sideCrossElements_total c.elements
    exact ⟨_, (side_cross_iterators_of_elements c r hr).1⟩
  | reverse => exact ⟨_, rfl⟩
  | middle_out =>
    obtain ⟨v, -, hb, -⟩ := producer_views c Producer.middle_out (fun _ => hfit rfl)
    exact ⟨_, hb⟩

theorem collect_deref_none (fuel : Nat) (it last : BaseIterator α) (actual : List α)
    (hfuel : 0 < fuel) (hne : it.ne last = true) (hd : it.deref = none) :
    collect fuel it last actual = none := by
  cases fuel with
  | zero => omega
  | succ fuel => simp only [collect, hne, if_true, hd]

theorem side_cross_kind_of_empty_view [LinearOrder α] (c : MyContainer α)
    (h : sideCrossElements c.elements = some []) (hpos : 0 < c.size) :
    c.beginOf Producer.side_cross = some (BaseIterator.mk [] 0) ∧
      c.endOf Producer.side_cross = some (BaseIterator.mk [] c.size) ∧
      (BaseIterator.mk ([] : List α) 0).ne (BaseIterator.mk [] c.size) = true ∧
      c.traverse Producer.side_cross = none := by
  obtain ⟨hb, he⟩ := side_cross_iterators_of_elements c [] h
  have hb2 : c.beginOf Producer.side_cross = some (BaseIterator.mk [] 0) := hb
  have he2 : c.endOf Producer.side_cross = some (BaseIterator.mk [] c.size) := he
  have hne : (BaseIterator.mk ([] : List α) 0).ne (BaseIterator.mk [] c.size) = true := by
    have h0 : ¬ 0 = c.size := by omega
    simp [BaseIterator.ne, BaseIterator.eq, h0]
  refine ⟨hb2, he2, hne, ?_⟩
  simp only [MyContainer.traverse, hb2, he2]
  exact collect_deref_none _ _ _ _ hpos hne rfl

theorem middle_out_kind_of_undefined [LinearOrder α] (c : MyContainer α)
    (h : middleOutElements c.elements = none) :
    c.beginOf Producer.middle_out = none ∧
      c.endOf Producer.middle_out = none ∧
      c.traverse Producer.middle_out = none := by
  obtain ⟨hb, he⟩ := middle_out_iterators_of_elements c none h
  have hb2 : c.beginOf Producer.middle_out = none := hb
  have he2 : c.endOf Producer.middle_out = none := he
  refine ⟨hb2, he2, ?_⟩
  simp only [MyContainer.traverse, hb2]

theorem overIntMax_pos : 0 < overIntMax.size := by
  rw [overIntMax_size]
  decide

/-- Claim C12 fails on the program for a collection of `2^31 + 1` elements.
Side-cross: `int right = temp.size() - 1` is negative, so the view is empty
while the end iterator is at position `size()`; the end position is not the
length of the view and the first step of the loop from begin to end
dereferences position 0 outside the view. Middle-out: `int n = temp.size()`
is negative and the first read is out of range, so the constructor
produces no iterator. -/
theorem traversal_bounds_lost_beyond_int_max :
    overIntMax.size = 2147483649 ∧
      (overIntMax.beginOf Producer.side_cross = some (BaseIterator.mk [] 0) ∧
        overIntMax.endOf Producer.side_cross = some (BaseIterator.mk [] overIntMax.size) ∧
        (BaseIterator.mk ([] : List Int) 0).ne (BaseIterator.mk [] overIntMax.size) = true ∧
        overIntMax.traverse Producer.side_cross = none) ∧
      (BaseIterator.mk ([] : List Int) 0).deref = none ∧
      (overIntMax.beginOf Producer.middle_out = none ∧
        overIntMax.endOf Producer.middle_out = none ∧
        overIntMax.traverse Producer.middle_out = none) :=
  ⟨overIntMax_size,
    side_cross_kind_of_empty_view overIntMax overIntMax_side_cross overIntMax_pos,
    rfl,
    middle_out_kind_of_undefined overIntMax overIntMax_middle_out⟩

/-! ## The side-cross and middle-out views as rearrangements -/

theorem sideCrossLoop_perm (s : List α) :
    ∀ (fuel L R : Nat) (out r : List α), L ≤ R → R ≤ s.length →
      out.Perm (s.take L ++ s.drop R) →
      sideCrossLoop s fuel (L : Int) ((R : Int) - 1) out = some r → r.Perm s := by
  classical
  intro fuel
  induction fuel with
  | zero =>
    intro L R out r hLR hR hp h
    by_cases hc : (L : Int) ≤ (R : Int) - 1
    · simp only [sideCrossLoop, hc, if_true] at h
      cases h
    · simp only [sideCrossLoop, hc, if_false, Option.some.injEq] at h
      have hL : L = R := by omega
      subst hL
      subst h
      simpa using hp
  | succ fuel ih =>
    intro L R out r hLR hR hp h
    by_cases hc : (L : Int) ≤ (R : Int) - 1
    · have hLlt : L < s.length := by omega
      have hreadL : readAt s (L : Int) = some s[L] := readAt_of_eq s _ L rfl hLlt
      have htake : s.take (L + 1) = s.take L ++ [s[L]] := by
        rw [List.take_succ, List.getElem?_eq_getElem hLlt]
        rfl
      by_cases hc2 : (L : Int) + 1 ≤ (R : Int) - 1
      · have hRlt : R - 1 < s.length := by omega
        have hreadR : readAt s ((R : Int) - 1) = some s[R - 1] :=
          readAt_of_eq s _ (R - 1) (by omega) hRlt
        have hdrop : s.drop (R - 1) = s[R - 1] :: s.drop R := by
          have e := List.drop_eq_getElem_cons hRlt
          have e2 : R - 1 + 1 = R := by omega
          rw [e2] at e
          exact e
        simp only [sideCrossLoop, hc, if_true, hreadL, hc2, hreadR] at h
        have e1 : (L : Int) + 1 = ((L + 1 : Nat) : Int) := by omega
        have e2 : (R : Int) - 1 - 1 = ((R - 1 : Nat) : Int) - 1 := by omega
        rw [e1, e2] at h
        refine ih (L + 1) (R - 1) _ r (by omega) (by omega) ?_ h
        rw [htake, hdrop, List.perm_iff_count]
        intro x
        have hx := hp.count_eq x
        simp only [List.count_append, List.count_cons, List.count_nil] at hx ⊢
        omega
      · have hLR2 : L + 1 = R := by omega
        simp only [sideCrossLoop, hc, if_true, hreadL, hc2, if_false] at h
        have e1 : (L : Int) + 1 = ((L + 1 : Nat) : Int) := by omega
        rw [e1] at h
        refine ih (L + 1) R _ r (by omega) hR ?_ h
        rw [htake, List.perm_iff_count]
        intro x
        have hx := hp.count_eq x
        simp only [List.count_append, List.count_cons, List.count_nil] at hx ⊢
        omega
    · simp only [sideCrossLoop, hc, if_false, Option.some.injEq] at h
      have hL : L = R := by omega
      subst hL
      subst h
      simpa using hp

theorem sideCrossElements_perm [LinearOrder α] (elements r : List α)
    (hfit : elements.length ≤ INT_MAX)
    (h : sideCrossElements elements = some r) : r.Perm elements := by
  have hlen : (std_sort elements).length = elements.length := List.length_insertionSort _ _
  by_cases hempty : elements = []
  · subst hempty
    simp [sideCrossElements] at h
    subst h
    exact List.Perm.refl _
  · have hne : elements.isEmpty = false := by
      cases elements with
      | nil => exact absurd rfl hempty
      | cons a l => rfl
    simp only [sideCrossElements, hne] at h
    have hpos : 1 ≤ (std_sort elements).length := by
      rw [hlen]
      cases elements with
      | nil => exact absurd rfl hempty
      | cons a l => simp
    have hconv : toInt ((std_sort elements).length - 1)
        = ((std_sort elements).length : Int) - 1 := by
      rw [toInt_of_le_INT_MAX _ (by omega)]
      omega
    rw [hconv] at h
    have h2 : sideCrossLoop (std_sort elements) (std_sort elements).length ((0 : Nat) : Int)
        (((std_sort elements).length : Int) - 1) [] = some r := h
    have hp := sideCrossLoop_perm (std_sort elements) (std_sort elements).length 0
      (std_sort elements).length [] r (Nat.zero_le _) (Nat.le_refl _) (by simp) h2
    exact hp.trans (List.perm_insertionSort _ _)

theorem middleOutLoop_perm (xs : List α) :
    ∀ (fuel L R : Nat) (out r : List α), L ≤ R → R ≤ xs.length →
      (out ++ xs.take L ++ xs.drop R).Perm xs →
      middleOutLoop xs (xs.length : Int) fuel ((L : Int) - 1) (R : Int) out = some r →
      r.Perm xs := by
  classical
  intro fuel
  induction fuel with
  | zero =>
    intro L R out r hLR hR hp h
    by_cases hc : 0 ≤ (L : Int) - 1 ∨ (R : Int) < (xs.length : Int)
    · simp only [middleOutLoop, hc, if_true] at h
      cases h
    · simp only [middleOutLoop, hc, if_false, Option.some.injEq] at h
      have hL : L = 0 := by omega
      have hRn : R = xs.length := by omega
      subst hL
      subst hRn
      subst h
      simpa using hp
  | succ fuel ih =>
    intro L R out r hLR hR hp h
    by_cases hc : 0 ≤ (L : Int) - 1 ∨ (R : Int) < (xs.length : Int)
    · by_cases hl : 0 ≤ (L : Int) - 1
      · have hLlt : L - 1 < xs.length := by omega
        have hreadL : readAt xs ((L : Int) - 1) = some xs[L - 1] :=
          readAt_of_eq xs _ (L - 1) (by omega) hLlt
        have htake : xs.take L = xs.take (L - 1) ++ [xs[L - 1]] := by
          have e := List.take_succ (l := xs) (n := L - 1)
          have e2 : L - 1 + 1 = L := by omega
          rw [e2, List.getElem?_eq_getElem hLlt] at e
          exact e
        have e1 : (L : Int) - 1 - 1 = ((L - 1 : Nat) : Int) - 1 := by omega
        by_cases hr : (R : Int) < (xs.length : Int)
        · have hRlt : R < xs.length := by omega
          have hreadR : readAt xs (R : Int) = some xs[R] := readAt_of_eq xs _ R rfl hRlt
          have hdrop : xs.drop R = xs[R] :: xs.drop (R + 1) := List.drop_eq_getElem_cons hRlt
          simp only [middleOutLoop, hc, if_true, hl, hreadL, Option.map_some', hr, hreadR] at h
          have e2 : (R : Int) + 1 = ((R + 1 : Nat) : Int) := by omega
          rw [e1, e2] at h
          refine ih (L - 1) (R + 1) _ r (by omega) (by omega) ?_ h
          rw [List.perm_iff_count]
          intro x
          have hx := hp.count_eq x
          rw [htake, hdrop] at hx
          simp only [List.count_append, List.count_cons, List.count_nil] at hx ⊢
          omega
        · simp only [middleOutLoop, hc, if_true, hl, hreadL, Option.map_some', hr, if_false] at h
          rw [e1] at h
          refine ih (L - 1) R _ r (by omega) hR ?_ h
          rw [List.perm_iff_count]
          intro x
          have hx := hp.count_eq x
          rw [htake] at hx
          simp only [List.count_append, List.count_cons, List.count_nil] at hx ⊢
          omega
      · have hr : (R : Int) < (xs.length : Int) := by
          rcases hc with h1 | h2
          · exact absurd h1 hl
          · exact h2
        have hRlt : R < xs.length := by omega
        have hreadR : readAt xs (R : Int) = some xs[R] := readAt_of_eq xs _ R rfl hRlt
        have hdrop : xs.drop R = xs[R] :: xs.drop (R + 1) := List.drop_eq_getElem_cons hRlt
        simp only [middleOutLoop, hc, if_true, hl, if_false, hr, hreadR, Option.map_some'] at h
        have e2 : (R : Int) + 1 = ((R + 1 : Nat) : Int) := by omega
        rw [e2] at h
        refine ih L (R + 1) _ r (by omega) (by omega) ?_ h
        rw [List.perm_iff_count]
        intro x
        have hx := hp.count_eq x
        rw [hdrop] at hx
        simp only [List.count_append, List.count_cons, List.count_nil] at hx ⊢
        omega
    · simp only [middleOutLoop, hc, if_false, Option.some.injEq] at h
      have hL : L = 0 := by omega
      have hRn : R = xs.length := by omega
      subst hL
      subst hRn
      subst h
      simpa using hp

theorem middleOutElements_perm (xs r : List α) (hfit : xs.length ≤ INT_MAX)
    (h : middleOutElements xs = some r) : r.Perm xs := by
  classical
  by_cases hempty : xs = []
  · subst hempty
    simp [middleOutElements] at h
    subst h
    exact List.Perm.refl _
  · have hne : xs.isEmpty = false := by
      cases xs with
      | nil => exact absurd rfl hempty
      | cons a l => rfl
    have hpos : 1 ≤ xs.length := by
      cases xs with
      | nil => exact absurd rfl hempty
      | cons a l => simp
    have hmlt : xs.length / 2 < xs.length := by omega
    have hmid : Int.tdiv (xs.length : Int) 2 = ((xs.length / 2 : Nat) : Int) := by
      rw [Int.tdiv_eq_ediv (by omega) (by omega)]
      omega
    have hread : readAt xs (Int.tdiv (xs.length : Int) 2) = some xs[xs.length / 2] :=
      readAt_of_eq xs _ (xs.length / 2) hmid hmlt
    rw [middleOutElements_eq xs hne, toInt_of_le_INT_MAX xs.length hfit, hread] at h
    simp only [] at h
    rw [hmid] at h
    have e : ((xs.length / 2 : Nat) : Int) + 1 = ((xs.length / 2 + 1 : Nat) : Int) := by omega
    rw [e] at h
    refine middleOutLoop_perm xs xs.length (xs.length / 2) (xs.length / 2 + 1) _ r
      (by omega) (by omega) ?_ (by simpa using h)
    have hsplit : xs = xs.take (xs.length / 2) ++ xs[xs.length / 2] :: xs.drop (xs.length / 2 + 1) := by
      rw [← List.drop_eq_getElem_cons hmlt, List.take_append_drop]
    rw [List.perm_iff_count]
    intro x
    have hx := congrArg (List.count x) hsplit
    simp only [List.count_append, List.count_cons, List.count_nil] at hx ⊢
    omega

theorem readAt_map {β : Type} (f : α → β) (l : List α) (i : Int) :
    readAt (l.map f) i = (readAt l i).map f := by
  unfold readAt
  split_ifs <;> simp

theorem middleOutLoop_map {β : Type} (f : α → β) (l : List α) (n : Int) :
    ∀ (fuel : Nat) (left right : Int) (out : List α),
      middleOutLoop (l.map f) n fuel left right (out.map f) =
        (middleOutLoop l n fuel left right out).map (List.map f) := by
  intro fuel
  induction fuel with
  | zero =>
    intro left right out
    simp only [middleOutLoop]
    split_ifs <;> rfl
  | succ fuel ih =>
    intro left right out
    have happ : ∀ (o : List α) (a : α), o.map f ++ [f a] = (o ++ [a]).map f := by
      intro o a
      simp
    simp only [middleOutLoop, readAt_map]
    by_cases hc : 0 ≤ left ∨ right < n
    · simp only [hc, if_true]
      by_cases hl : 0 ≤ left
      · simp only [hl, if_true]
        cases hrl : readAt l left with
        | none => rfl
        | some a =>
          simp only [Option.map_some', happ]
          by_cases hr : right < n
          · simp only [hr, if_true]
            cases hrr : readAt l right with
            | none => rfl
            | some b =>
              simp only [Option.map_some', happ]
              exact ih _ _ _
          · simp only [hr, if_false]
            exact ih _ _ _
      · simp only [hl, if_false]
        by_cases hr : right < n
        · simp only [hr, if_true]
          cases hrr : readAt l right with
          | none => rfl
          | some b =>
            simp only [Option.map_some', happ]
            exact ih _ _ _
        · simp only [hr, if_false]
          exact ih _ _ _
    · simp only [hc, if_false]
      rfl

theorem middleOutElements_map {β : Type} (f : α → β) (l : List α) :
    middleOutElements (l.map f) = (middleOutElements l).map (List.map f) := by
  cases l with
  | nil => rfl
  | cons a t =>
    have hne : (a :: t).isEmpty = false := rfl
    have hne2 : (List.map f (a :: t)).isEmpty = false := rfl
    rw [middleOutElements_eq _ hne, middleOutElements_eq _ hne2, readAt_map, List.length_map]
    cases hr : readAt (a :: t) (Int.tdiv (toInt (a :: t).length) 2) with
    | none => rfl
    | some m =>
      simp only [Option.map_some']
      exact middleOutLoop_map f (a :: t) _ _ _ _ [m]

theorem middleOutElements_some (xs : List α) (hfit : xs.length ≤ INT_MAX) :
    ∃ r, middleOutElements xs = some r ∧ r.length = xs.length ∧ r.Perm xs := by
  by_cases h : xs = []
  · rw [h]
    exact ⟨[], rfl, rfl, List.Perm.refl _⟩
  · have hpos : 1 ≤ xs.length := by
      cases xs with
      | nil => exact absurd rfl h
      | cons a l => simp
    obtain ⟨r, hr, hlen, -⟩ := middleOutElements_positions xs hpos hfit
    exact ⟨r, hr, hlen, middleOutElements_perm xs r hfit hr⟩

/-- For a collection of at most `INT_MAX` elements the side-cross view is a
permutation of the storage (every value occurs as often as it is stored)
and has `size()` elements; for odd
`size()` its last element is the median `s[(size()-1)/2]` of the sorted
sequence `s`; for the empty collection the view is empty. -/
theorem side_cross_is_permutation_within_int [LinearOrder α] (c : MyContainer α)
    (hfit : c.size ≤ INT_MAX) :
    ∃ it, c.begin_side_cross_order = some it ∧
      it.sorted_elements.Perm c.elements ∧
      (∀ a, it.sorted_elements.count a = c.elements.count a) ∧
      it.sorted_elements.length = c.size ∧
      (∀ s : List α, s.Sorted (fun a b => a ≤ b) → s.Perm c.elements → c.size % 2 = 1 →
        ∃ x, s[(c.size - 1) / 2]? = some x ∧ it.sorted_elements[c.size - 1]? = some x ∧
          it.sorted_elements.getLast? = some x) ∧
      (c.elements = [] → it.sorted_elements = []) := by
  obtain ⟨r, hr, hlen, heven, -⟩ := sideCrossElements_positions c.elements hfit
  have hperm := sideCrossElements_perm c.elements r hfit hr
  refine ⟨BaseIterator.mk r 0, ?_, hperm, fun a => hperm.count_eq a, hlen, ?_, ?_⟩
  · simp [MyContainer.begin_side_cross_order, SideCrossIterator, hr]
  · intro s hs hp hodd
    simp only [MyContainer.size] at hodd ⊢
    have hsort : std_sort c.elements = s :=
      List.eq_of_perm_of_sorted ((List.perm_insertionSort _ _).trans hp.symm)
        (List.sorted_insertionSort (fun a b => a ≤ b) c.elements) hs
    have hslen : s.length = c.elements.length := hp.length_eq
    have hmid : (c.elements.length - 1) / 2 < s.length := by omega
    have h2 : 2 * ((c.elements.length - 1) / 2) = c.elements.length - 1 := by omega
    have hpos := heven ((c.elements.length - 1) / 2) (by omega)
    rw [hsort, h2, List.getElem?_eq_getElem hmid] at hpos
    refine ⟨s[(c.elements.length - 1) / 2], List.getElem?_eq_getElem hmid, hpos, ?_⟩
    rw [List.getLast?_eq_getElem?]
    show r[r.length - 1]? = _
    rw [hlen]
    exact hpos
  · intro hnil
    have h0 : r.length = 0 := by rw [hlen, hnil]; rfl
    exact List.length_eq_zero.mp h0

/-- Claim C13 fails on the program for a collection of `2^31 + 1` elements:
`int right = temp.size() - 1` is negative, the loop body never runs and the
side-cross view is empty; it holds no 0 while the storage holds
`2147483649` of them, so it is not a permutation of the storage. -/
theorem side_cross_not_a_permutation_beyond_int_max :
    overIntMax.size = 2147483649 ∧
      overIntMax.begin_side_cross_order = some (BaseIterator.mk [] 0) ∧
      List.count 0 (BaseIterator.mk ([] : List Int) 0).sorted_elements = 0 ∧
      List.count 0 overIntMax.elements = 2147483649 ∧
      ¬ (BaseIterator.mk ([] : List Int) 0).sorted_elements.Perm overIntMax.elements := by
  refine ⟨overIntMax_size,
    (side_cross_iterators_of_elements overIntMax [] overIntMax_side_cross).1, rfl, ?_, ?_⟩
  · rw [overIntMax_elements]
    exact List.count_replicate_self _ _
  · intro hp
    have hl := hp.length_eq
    rw [overIntMax_length] at hl
    exact absurd hl (by decide)

/-- For a collection of at most `INT_MAX` elements the middle-out view is a
permutation of the storage and has `size()` elements, for even as well as
odd sizes; more precisely there is a
rearrangement of the indices `0 .. size()-1`, each occurring exactly once,
such that the view lists the storage elements at these indices. -/
theorem middle_out_is_permutation_within_int (c : MyContainer α)
    (hfit : c.size ≤ INT_MAX) :
    ∃ it, c.begin_middle_out_order = some it ∧
      it.sorted_elements.Perm c.elements ∧
      it.sorted_elements.length = c.size ∧
      (∃ idx : List (Fin c.elements.length),
        idx.Perm (List.finRange c.elements.length) ∧ idx.Nodup ∧
          (∀ i : Fin c.elements.length, i ∈ idx) ∧
          it.sorted_elements = idx.map c.elements.get) := by
  obtain ⟨r, hr, hlen, hperm⟩ := middleOutElements_some c.elements hfit
  refine ⟨BaseIterator.mk r 0, ?_, hperm, hlen, ?_⟩
  · simp [MyContainer.begin_middle_out_order, MiddleOutIterator, hr]
  · obtain ⟨idx, hidx, -, hip⟩ := middleOutElements_some (List.finRange c.elements.length)
      (by rw [List.length_finRange]; exact hfit)
    refine ⟨idx, hip, hip.nodup_iff.mpr (List.nodup_finRange _), ?_, ?_⟩
    · intro i
      exact hip.mem_iff.mpr (List.mem_finRange i)
    · have hmap := middleOutElements_map c.elements.get (List.finRange c.elements.length)
      rw [List.finRange_map_get, hr, hidx] at hmap
      simpa using hmap

/-- Claim C14 fails on the program for a collection of `2^31 + 1` elements:
`int n = temp.size()` is negative, `middle = n / 2` is negative and the
read `temp[middle]` is out of range (undefined behaviour), so neither
middle-out producer yields an iterator and no view is a permutation of the
storage. -/
theorem middle_out_not_a_permutation_beyond_int_max :
    overIntMax.size = 2147483649 ∧
      middleOutElements overIntMax.elements = none ∧
      overIntMax.begin_middle_out_order = none ∧
      overIntMax.end_middle_out_order = none ∧
      ¬ ∃ it, overIntMax.begin_middle_out_order = some it ∧
          it.sorted_elements.Perm overIntMax.elements := by
  obtain ⟨hb, he⟩ := middle_out_iterators_of_elements overIntMax none overIntMax_middle_out
  refine ⟨overIntMax_size, overIntMax_middle_out, hb, he, ?_⟩
  rintro ⟨it, hit, -⟩
  rw [hb] at hit
  cases hit

/-- Claim C15: the descending view is the ascending view reversed: the
element at position `i` of the one is the element at position
`size()-1-i` of the other. -/
theorem descending_is_reverse_ascending [LinearOrder α] (c : MyContainer α) :
    c.begin_descending_order.sorted_elements =
        c.begin_ascending_order.sorted_elements.reverse ∧
      c.begin_descending_order.sorted_elements.length = c.size ∧
      c.begin_ascending_order.sorted_elements.length = c.size ∧
      (∀ i, i < c.size →
        ∃ x, c.begin_descending_order.sorted_elements[i]? = some x ∧
          c.begin_ascending_order.sorted_elements[c.size - 1 - i]? = some x) := by
  have hasc_len : (std_sort c.elements).length = c.elements.length :=
    List.length_insertionSort _ _
  have hrev : std_sort_greater c.elements = (std_sort c.elements).reverse := by
    refine List.eq_of_perm_of_sorted (r := fun a b : α => a ≥ b) ?_ ?_ ?_
    · exact (List.perm_insertionSort _ _).trans
        ((List.perm_insertionSort _ _).symm.trans (List.reverse_perm _).symm)
    · exact List.sorted_insertionSort (fun a b : α => a ≥ b) c.elements
    · exact List.pairwise_reverse.mpr
        (List.sorted_insertionSort (fun a b : α => a ≤ b) c.elements)
  refine ⟨hrev, ?_, hasc_len, ?_⟩
  · exact List.length_insertionSort _ _
  · intro i hi
    simp only [MyContainer.size] at hi ⊢
    have hi2 : c.elements.length - 1 - i < (std_sort c.elements).length := by omega
    refine ⟨(std_sort c.elements)[c.elements.length - 1 - i], ?_, List.getElem?_eq_getElem hi2⟩
    show (std_sort_greater c.elements)[i]? = _
    rw [hrev, List.getElem?_reverse (by omega), hasc_len]
    exact List.getElem?_eq_getElem hi2

theorem descending_is_reverse_ascending_witness :
    ∃ x, (MyContainer.mk [7, 15, 6, 1, 2]).begin_descending_order.sorted_elements[1]? = some x ∧
      (MyContainer.mk [7, 15, 6, 1, 2]).begin_ascending_order.sorted_elements[
        (MyContainer.mk [7, 15, 6, 1, 2]).size - 1 - 1]? = some x :=
  (descending_is_reverse_ascending (MyContainer.mk [7, 15, 6, 1, 2])).2.2.2 1 (by decide)

/-! ## Round trip through the reverse view -/

theorem foldl_add_elements (l : List α) (c : MyContainer α) :
    (l.foldl MyContainer.add c).elements = c.elements ++ l := by
  induction l generalizing c with
  | nil => simp
  | cons x l ih =>
    rw [List.foldl_cons, ih]
    simp [MyContainer.add]

theorem collect_reverse (c : MyContainer α) :
    collect c.size c.begin_reverse_order c.end_reverse_order [] = some c.elements.reverse := by
  have h := collect_full (std_reverse c.elements) (std_reverse c.elements) c.size
    (List.length_reverse _) c.size
  simpa [MyContainer.begin_reverse_order, MyContainer.end_reverse_order, ReverseIterator,
    MyContainer.size, std_reverse] using h

/-- Claim C16: traversing the reverse view of a collection, adding the
values in this order to an empty collection, and traversing the reverse view
of the new collection yields the storage of the first collection. -/
theorem reverse_of_reverse_is_original (c : MyContainer α) :
    ∃ l, collect c.size c.begin_reverse_order c.end_reverse_order [] = some l ∧
      l = c.elements.reverse ∧
      (l.foldl MyContainer.add MyContainer.empty).begin_reverse_order.sorted_elements
        = c.elements ∧
      collect (l.foldl MyContainer.add MyContainer.empty).size
        (l.foldl MyContainer.add MyContainer.empty).begin_reverse_order
        (l.foldl MyContainer.add MyContainer.empty).end_reverse_order [] = some c.elements ∧
      collect c.size c.begin_order c.end_order [] = some c.elements := by
  have hel : ((c.elements.reverse).foldl MyContainer.add MyContainer.empty).elements
      = c.elements.reverse := by
    rw [foldl_add_elements]
    rfl
  refine ⟨c.elements.reverse, collect_reverse c, rfl, ?_, ?_, ?_⟩
  · show std_reverse _ = _
    rw [hel]
    exact List.reverse_reverse _
  · rw [collect_reverse, hel, List.reverse_reverse]
  · have h := collect_full c.elements c.elements c.size rfl c.size
    simpa [MyContainer.begin_order, MyContainer.end_order, OrderIterator, MyContainer.size]
      using h

/-! ## The sample collection and the empty collection -/

/-- Claim C17: for the collection built by adding 7, 15, 6, 1, 2 in this
order, the six traversals give ascending `[1, 2, 6, 7, 15]`, descending
`[15, 7, 6, 2, 1]`, side-cross `[1, 15, 2, 7, 6]`, reverse `[2, 1, 6, 15, 7]`,
insertion order `[7, 15, 6, 1, 2]` and middle-out `[6, 15, 1, 7, 2]`. -/
theorem sample_views :
    (((((MyContainer.empty.add (7 : Int)).add 15).add 6).add 1).add 2).traverse
        Producer.ascending = some [1, 2, 6, 7, 15] ∧
      (((((MyContainer.empty.add (7 : Int)).add 15).add 6).add 1).add 2).traverse
        Producer.descending = some [15, 7, 6, 2, 1] ∧
      (((((MyContainer.empty.add (7 : Int)).add 15).add 6).add 1).add 2).traverse
        Producer.side_cross = some [1, 15, 2, 7, 6] ∧
      (((((MyContainer.empty.add (7 : Int)).add 15).add 6).add 1).add 2).traverse
        Producer.reverse = some [2, 1, 6, 15, 7] ∧
      (((((MyContainer.empty.add (7 : Int)).add 15).add 6).add 1).add 2).traverse
        Producer.order = some [7, 15, 6, 1, 2] ∧
      (((((MyContainer.empty.add (7 : Int)).add 15).add 6).add 1).add 2).traverse
        Producer.middle_out = some [6, 15, 1, 7, 2] ∧
      (((((MyContainer.empty.add (7 : Int)).add 15).add 6).add 1).add 2).beginOf
        Producer.side_cross = some (BaseIterator.mk [1, 15, 2, 7, 6] 0) ∧
      (((((MyContainer.empty.add (7 : Int)).add 15).add 6).add 1).add 2).beginOf
        Producer.middle_out = some (BaseIterator.mk [6, 15, 1, 7, 2] 0) := by
  decide

/-! ## Printing -/

theorem intercalate_go_append (s : String) :
    ∀ (l : List String) (acc t : String),
      String.intercalate.go (acc ++ t) s l = acc ++ String.intercalate.go t s l := by
  intro l
  induction l with
  | nil =>
    intro acc t
    rfl
  | cons a l ih =>
    intro acc t
    simp only [String.intercalate.go]
    rw [String.append_assoc, String.append_assoc, ih, String.append_assoc]

theorem intercalate_cons_cons (s a b : String) (l : List String) :
    String.intercalate s (a :: b :: l) = a ++ s ++ String.intercalate s (b :: l) := by
  simp only [String.intercalate, String.intercalate.go]
  exact intercalate_go_append s l (a ++ s) b

theorem outputLoop_eq (render : α → String) (elements : List α) :
    ∀ (fuel i : Nat) (os : String), i ≤ elements.length → elements.length - i ≤ fuel →
      outputLoop render elements fuel i os =
        some (os ++ String.intercalate ", " ((elements.drop i).map render)) := by
  intro fuel
  induction fuel with
  | zero =>
    intro i os hi hf
    have hin : ¬ i < elements.length := by omega
    have hdrop : elements.drop i = [] := List.drop_eq_nil_of_le (by omega)
    simp [outputLoop, hin, hdrop, String.intercalate]
  | succ fuel ih =>
    intro i os hi hf
    by_cases hin : i < elements.length
    · have hget : elements[i]? = some elements[i] := List.getElem?_eq_getElem hin
      have hdrop : elements.drop i = elements[i] :: elements.drop (i + 1) :=
        List.drop_eq_getElem_cons hin
      simp only [outputLoop, hin, if_true, hget]
      rw [ih (i + 1) _ (by omega) (by omega), hdrop]
      by_cases hlast : i < elements.length - 1
      · have hin2 : i + 1 < elements.length := by omega
        have hdrop2 : elements.drop (i + 1) = elements[i + 1] :: elements.drop (i + 1 + 1) :=
          List.drop_eq_getElem_cons hin2
        rw [if_pos hlast, hdrop2]
        simp only [List.map_cons]
        rw [intercalate_cons_cons]
        simp only [String.append_assoc]
      · have hdrop2 : elements.drop (i + 1) = [] := List.drop_eq_nil_of_le (by omega)
        rw [if_neg hlast, hdrop2]
        simp [String.intercalate, String.intercalate.go]
    · have hdrop : elements.drop i = [] := List.drop_eq_nil_of_le (by omega)
      simp [outputLoop, hin, hdrop, String.intercalate]

theorem output_eq (render : α → String) (os : String) (c : MyContainer α) :
    c.output render os =
      some (os ++ "[" ++ String.intercalate ", " (c.elements.map render) ++ "]") := by
  simp only [MyContainer.output]
  rw [outputLoop_eq render c.elements c.elements.length 0 _ (Nat.zero_le _) (by omega)]
  simp

/-- Claim C18: for the empty collection `size()` is 0, `operator<<` writes
exactly `[]`, and for each of the six producers the begin iterator compares
equal to the end iterator, the view is empty and the traversal yields
nothing. -/
theorem empty_collection [LinearOrder α] :
    (MyContainer.empty : MyContainer α).size = 0 ∧
      (∀ (render : α → String) (os : String),
        (MyContainer.empty : MyContainer α).output render os = some (os ++ "[]")) ∧
      (∀ render : α → String,
        (MyContainer.empty : MyContainer α).output render "" = some "[]") ∧
      (∀ kind : Producer,
        ∃ first last, (MyContainer.empty : MyContainer α).beginOf kind = some first ∧
          (MyContainer.empty : MyContainer α).endOf kind = some last ∧
          first.eq last = true ∧ first.ne last = false ∧
          first.sorted_elements = [] ∧
          (MyContainer.empty : MyContainer α).traverse kind = some []) := by
  refine ⟨rfl, ?_, ?_, ?_⟩
  · intro render os
    rw [output_eq]
    simp [MyContainer.empty, String.intercalate, String.append_assoc]
  · intro render
    rw [output_eq]
    simp [MyContainer.empty, String.intercalate]
  · intro kind
    obtain ⟨v, hlen, hb, he⟩ := producer_views (MyContainer.empty : MyContainer α) kind
      (fun _ => Nat.zero_le _)
    have hv : v = [] := List.length_eq_zero.mp hlen
    subst hv
    refine ⟨_, _, hb, he, rfl, rfl, rfl, ?_⟩
    simp only [MyContainer.traverse, hb, he]
    rfl

/-- Claim C19: `operator<<` appends to the stream an opening bracket, the
renderings of the stored elements in storage order joined by a comma and
a blank, and a closing bracket; a single element `e` is written as `[e]`
and the empty collection as `[]`. -/
theorem output_format (render : α → String) (os : String) (c : MyContainer α) :
    c.output render os =
        some (os ++ "[" ++ String.intercalate ", " (c.elements.map render) ++ "]") ∧
      (∀ e : α, (MyContainer.mk [e]).output render "" = some ("[" ++ render e ++ "]")) ∧
      (∀ e1 e2 e3 : α, (MyContainer.mk [e1, e2, e3]).output render "" =
        some ("[" ++ render e1 ++ ", " ++ render e2 ++ ", " ++ render e3 ++ "]")) ∧
      (MyContainer.empty : MyContainer α).output render "" = some "[]" ∧
      (MyContainer.mk [(7 : Int), 15, 6, 1, 2]).output toString "" = some "[7, 15, 6, 1, 2]" := by
  refine ⟨output_eq render os c, ?_, ?_, ?_, ?_⟩
  · intro e
    rw [output_eq]
    simp [String.intercalate, String.intercalate.go]
  · intro e1 e2 e3
    rw [output_eq]
    simp [String.intercalate, String.intercalate.go, String.append_assoc]
  · rw [output_eq]
    simp [MyContainer.empty, String.intercalate]
  · rw [output_eq]
    decide

/-! ## Writing through an iterator -/

/-- Claim C20: the assignment `*it = x` at a valid position changes only that
position of the iterator's own view: the iterator then dereferences to `x`,
its position, the length of its view and all other elements of the view are
as before. The container of the caller is unchanged, with the same size and
storage, and every producer and traversal gives what it gave before. -/
theorem write_through_iterator_is_local [LinearOrder α] (c : MyContainer α)
    (it : BaseIterator α) (x : α) (hi : it.index < it.sorted_elements.length) :
    ∃ it1, it.assign x = some it1 ∧
      it1.deref = some x ∧
      it1.index = it.index ∧
      it1.sorted_elements.length = it.sorted_elements.length ∧
      (∀ j, j ≠ it.index → it1.sorted_elements[j]? = it.sorted_elements[j]?) ∧
      Caller.assign (Caller.mk c it) x = some (Caller.mk c it1) ∧
      (∀ s1, Caller.assign (Caller.mk c it) x = some s1 →
        s1.container = c ∧ s1.container.size = c.size ∧
          s1.container.elements = c.elements ∧
          (∀ kind, s1.container.beginOf kind = c.beginOf kind ∧
            s1.container.endOf kind = c.endOf kind ∧
            s1.container.traverse kind = c.traverse kind)) := by
  have ha : it.assign x =
      some (BaseIterator.mk (it.sorted_elements.set it.index x) it.index) := by
    simp [BaseIterator.assign, hi]
  refine ⟨BaseIterator.mk (it.sorted_elements.set it.index x) it.index, ha, ?_, rfl, ?_, ?_, ?_, ?_⟩
  · simp [BaseIterator.deref, hi]
  · simp
  · intro j hj
    exact List.getElem?_set_ne (Ne.symm hj)
  · simp [Caller.assign, ha]
  · intro s1 hs1
    simp only [Caller.assign, ha, Option.map_some', Option.some.injEq] at hs1
    subst hs1
    exact ⟨rfl, rfl, rfl, fun _ => ⟨rfl, rfl, rfl⟩⟩

theorem write_through_iterator_is_local_witness :
    (MyContainer.mk [42]).begin_order.index < (MyContainer.mk [42]).begin_order.sorted_elements.length ∧
      ∃ it1, (MyContainer.mk [42]).begin_order.assign 43 = some it1 ∧ it1.deref = some 43 ∧
        Caller.assign (Caller.mk (MyContainer.mk [42]) (MyContainer.mk [42]).begin_order) 43
          = some (Caller.mk (MyContainer.mk [42]) it1) :=
  ⟨by decide,
    match write_through_iterator_is_local (MyContainer.mk [42]) (MyContainer.mk [42]).begin_order 43
      (by decide) with
    | ⟨it1, h1, h2, _, _, _, h6, _⟩ => ⟨it1, h1, h2, h6⟩⟩

/-! ## Advancing and comparing iterators -/

/-- Claim C21: for an iterator at position `p`, pre-increment gives the same
iterator at position `p + 1`; post-increment returns a copy of the iterator
as it was (position `p`, same view) and leaves the iterator at position
`p + 1`, so the returned copy dereferences to the element at `p` and the
iterator to the element at `p + 1`. Neither changes the view. -/
theorem increment_semantics (it : BaseIterator α) :
    it.preIncrement.index = it.index + 1 ∧
      it.preIncrement.sorted_elements = it.sorted_elements ∧
      it.postIncrement.1 = it ∧
      it.postIncrement.1.index = it.index ∧
      it.postIncrement.1.sorted_elements = it.sorted_elements ∧
      it.postIncrement.2 = it.preIncrement ∧
      it.postIncrement.2.index = it.index + 1 ∧
      it.postIncrement.2.sorted_elements = it.sorted_elements ∧
      it.postIncrement.1.deref = it.sorted_elements[it.index]? ∧
      it.postIncrement.2.deref = it.sorted_elements[it.index + 1]? ∧
      it.preIncrement.deref = it.sorted_elements[it.index + 1]? ∧
      ((MyContainer.mk [(7 : Int), 15, 6, 1, 2]).begin_ascending_order.postIncrement.1.deref
          = some 1 ∧
        (MyContainer.mk [(7 : Int), 15, 6, 1, 2]).begin_ascending_order.postIncrement.2.deref
          = some 2) :=
  ⟨rfl, rfl, rfl, rfl, rfl, rfl, rfl, rfl, rfl, rfl, rfl, by decide⟩

/-- Claim C22: two iterators compare equal exactly when their positions are
equal, whatever views they carry, and `!=` is the negation of `==`; two
begin iterators of the same collection and producer are equal, and after
advancing one of them once they are unequal. Every producer but middle-out
yields a begin iterator for every collection, middle-out for every
collection of at most `INT_MAX` elements. -/
theorem iterator_equality_is_position [LinearOrder α] (a b : BaseIterator α) :
    (a.eq b = true ↔ a.index = b.index) ∧
      a.ne b = !a.eq b ∧
      (a.ne b = true ↔ a.index ≠ b.index) ∧
      (∀ (v w : List α) (p q : Nat),
        ((BaseIterator.mk v p).eq (BaseIterator.mk w q) = true ↔ p = q)) ∧
      (∀ (c : MyContainer α) (kind : Producer) (it1 it2 : BaseIterator α),
        c.beginOf kind = some it1 → c.beginOf kind = some it2 →
          it1.eq it2 = true ∧ it1.ne it2 = false ∧
            it1.preIncrement.ne it2 = true ∧ it1.preIncrement.eq it2 = false) ∧
      (∀ (c : MyContainer α) (kind : Producer),
        (kind = Producer.middle_out → c.size ≤ INT_MAX) →
          ∃ it1 it2, c.beginOf kind = some it1 ∧ c.beginOf kind = some it2 ∧
            it1.eq it2 = true ∧ it1.ne it2 = false ∧
            it1.preIncrement.ne it2 = true ∧ it1.preIncrement.eq it2 = false) := by
  have hsame : ∀ it : BaseIterator α, it.eq it = true ∧ it.ne it = false ∧
      it.preIncrement.ne it = true ∧ it.preIncrement.eq it = false := by
    intro it
    simp [BaseIterator.eq, BaseIterator.ne, BaseIterator.preIncrement]
  refine ⟨?_, rfl, ?_, ?_, ?_, ?_⟩
  · simp [BaseIterator.eq]
  · simp [BaseIterator.ne, BaseIterator.eq]
  · intro v w p q
    simp [BaseIterator.eq]
  · intro c kind it1 it2 h1 h2
    rw [h1] at h2
    cases h2
    exact hsame it1
  · intro c kind hfit
    obtain ⟨it, hit⟩ := producer_begin_exists c kind hfit
    exact ⟨it, it, hit, hit, hsame it⟩

theorem iterator_equality_is_position_witness :
    (MyContainer.mk [1, 2]).begin_order.eq (MyContainer.mk [1, 2]).begin_order = true ∧
      (MyContainer.mk [1, 2]).begin_order.ne (MyContainer.mk [1, 2]).begin_order = false ∧
      (MyContainer.mk [1, 2]).begin_order.preIncrement.ne (MyContainer.mk [1, 2]).begin_order
        = true ∧
      (MyContainer.mk [1, 2]).begin_order.preIncrement.eq (MyContainer.mk [1, 2]).begin_order
        = false :=
  (iterator_equality_is_position (MyContainer.mk [1, 2]).begin_order
    (MyContainer.mk [1, 2]).begin_order).2.2.2.2.1 (MyContainer.mk [1, 2]) Producer.order
    (MyContainer.mk [1, 2]).begin_order (MyContainer.mk [1, 2]).begin_order rfl rfl

/-- Claim C24, as stated, fails: for the storage `[1, 2, 3, 4]` the
middle-out view is `[3, 2, 4, 1]`; its first element is 3, the element at
index `4 / 2 = 2`, and not 2, the element at index `4 / 2 - 1 = 1`. -/
theorem middle_out_even_first_is_not_left_of_center :
    (MyContainer.mk [1, 2, 3, 4]).size % 2 = 0 ∧ 2 ≤ (MyContainer.mk [1, 2, 3, 4]).size ∧
      (MyContainer.mk [1, 2, 3, 4]).begin_middle_out_order
        = some (BaseIterator.mk [3, 2, 4, 1] 0) ∧
      (MyContainer.mk [1, 2, 3, 4]).elements[(MyContainer.mk [1, 2, 3, 4]).size / 2 - 1]?
        = some 2 ∧
      ¬ ∃ it x, (MyContainer.mk [1, 2, 3, 4]).begin_middle_out_order = some it ∧
          it.sorted_elements[0]? = some x ∧
          (MyContainer.mk [1, 2, 3, 4]).elements[(MyContainer.mk [1, 2, 3, 4]).size / 2 - 1]?
            = some x := by
  have hb : (MyContainer.mk [1, 2, 3, 4]).begin_middle_out_order
      = some (BaseIterator.mk [3, 2, 4, 1] 0) := by decide
  refine ⟨by decide, by decide, hb, by decide, ?_⟩
  rintro ⟨it, x, hit, h0, h1⟩
  rw [hb] at hit
  cases hit
  have e1 : (MyContainer.mk [1, 2, 3, 4]).elements[(MyContainer.mk [1, 2, 3, 4]).size / 2 - 1]?
      = some 2 := by decide
  rw [e1] at h1
  have e0 : (BaseIterator.mk [3, 2, 4, 1] 0).sorted_elements[0]? = some 3 := by decide
  rw [e0] at h0
  cases h0
  cases h1

/-- Claim C24, amended: for a collection of even size `n`, `2 ≤ n ≤ INT_MAX`,
the first element of the middle-out view is the storage element at index
`n / 2`, the right one of the two central elements; the left one, at index
`n / 2 - 1`, is the second element of the view. -/
theorem middle_out_even_first_is_index_half (c : MyContainer α)
    (heven : c.size % 2 = 0) (hn : 2 ≤ c.size) (hfit : c.size ≤ INT_MAX) :
    ∃ it, c.begin_middle_out_order = some it ∧
      (∃ x, it.sorted_elements[0]? = some x ∧ c.elements[c.size / 2]? = some x) ∧
      (∃ y, it.sorted_elements[1]? = some y ∧ c.elements[c.size / 2 - 1]? = some y) := by
  simp only [MyContainer.size] at heven hn hfit ⊢
  obtain ⟨r, hr, -, h0, hl, -⟩ := middleOutElements_positions c.elements (by omega) hfit
  have hlt0 : c.elements.length / 2 < c.elements.length := by omega
  have hlt1 : c.elements.length / 2 - 1 < c.elements.length := by omega
  have h1 := hl 1 (Nat.le_refl _) (by omega)
  refine ⟨BaseIterator.mk r 0, ?_, ⟨c.elements[c.elements.length / 2], ?_,
    List.getElem?_eq_getElem hlt0⟩, ⟨c.elements[c.elements.length / 2 - 1], ?_,
    List.getElem?_eq_getElem hlt1⟩⟩
  · simp [MyContainer.begin_middle_out_order, MiddleOutIterator, hr]
  · rw [← List.getElem?_eq_getElem hlt0]
    exact h0
  · rw [← List.getElem?_eq_getElem hlt1]
    exact h1

theorem middle_out_even_first_is_index_half_witness :
    (MyContainer.mk [1, 2, 3, 4]).size % 2 = 0 ∧ 2 ≤ (MyContainer.mk [1, 2, 3, 4]).size ∧
      (MyContainer.mk [1, 2, 3, 4]).size ≤ INT_MAX ∧
      ∃ it, (MyContainer.mk [1, 2, 3, 4]).begin_middle_out_order = some it ∧
        (∃ x, it.sorted_elements[0]? = some x ∧
          (MyContainer.mk [1, 2, 3, 4]).elements[(MyContainer.mk [1, 2, 3, 4]).size / 2]?
            = some x) ∧
        (∃ y, it.sorted_elements[1]? = some y ∧
          (MyContainer.mk [1, 2, 3, 4]).elements[(MyContainer.mk [1, 2, 3, 4]).size / 2 - 1]?
            = some y) :=
  ⟨by decide, by decide, by decide,
    middle_out_even_first_is_index_half (MyContainer.mk [1, 2, 3, 4]) (by decide) (by decide)
      (by decide)⟩

/-! ## The indices read by the side-cross and middle-out constructors -/

theorem sideCrossLoopReads_fst (s : List α) :
    ∀ (fuel : Nat) (left right : Int) (out : List α) (reads : List Int),
      (sideCrossLoopReads s fuel left right out reads).1 = sideCrossLoop s fuel left right out := by
  intro fuel
  induction fuel with
  | zero =>
    intro left right out reads
    rfl
  | succ fuel ih =>
    intro left right out reads
    simp only [sideCrossLoopReads, sideCrossLoop]
    by_cases hc : left ≤ right
    · simp only [hc, if_true]
      cases hl : readAt s left with
      | none => rfl
      | some a =>
        simp only []
        by_cases hc2 : left + 1 ≤ right
        · simp only [hc2, if_true]
          cases hr : readAt s right with
          | none => rfl
          | some b => exact ih _ _ _ _
        · simp only [hc2, if_false]
          exact ih _ _ _ _
    · simp only [hc, if_false]

theorem sideCrossLoopReads_range (s : List α) :
    ∀ (fuel L R : Nat) (out : List α) (reads : List Int), L ≤ R → R ≤ s.length →
      (∀ i ∈ reads, 0 ≤ i ∧ i < (s.length : Int)) →
      ∀ i ∈ (sideCrossLoopReads s fuel (L : Int) ((R : Int) - 1) out reads).2,
        0 ≤ i ∧ i < (s.length : Int) := by
  intro fuel
  induction fuel with
  | zero =>
    intro L R out reads hLR hR hreads
    exact hreads
  | succ fuel ih =>
    intro L R out reads hLR hR hreads
    by_cases hc : (L : Int) ≤ (R : Int) - 1
    · have hLlt : L < s.length := by omega
      have hreadL : readAt s (L : Int) = some s[L] := readAt_of_eq s _ L rfl hLlt
      by_cases hc2 : (L : Int) + 1 ≤ (R : Int) - 1
      · have hRlt : R - 1 < s.length := by omega
        have hreadR : readAt s ((R : Int) - 1) = some s[R - 1] :=
          readAt_of_eq s _ (R - 1) (by omega) hRlt
        have e1 : (L : Int) + 1 = ((L + 1 : Nat) : Int) := by omega
        have e2 : (R : Int) - 1 - 1 = ((R - 1 : Nat) : Int) - 1 := by omega
        simp only [sideCrossLoopReads, hc, if_true, hreadL, hc2, hreadR]
        rw [e1, e2]
        refine ih (L + 1) (R - 1) _ _ (by omega) (by omega) ?_
        intro i hi
        simp only [List.mem_append, List.mem_singleton] at hi
        rcases hi with (hi | hi) | hi
        · exact hreads i hi
        · omega
        · omega
      · have e1 : (L : Int) + 1 = ((L + 1 : Nat) : Int) := by omega
        simp only [sideCrossLoopReads, hc, if_true, hreadL, hc2, if_false]
        rw [e1]
        refine ih (L + 1) R _ _ (by omega) hR ?_
        intro i hi
        simp only [List.mem_append, List.mem_singleton] at hi
        rcases hi with hi | hi
        · exact hreads i hi
        · omega
    · simp only [sideCrossLoopReads, hc, if_false]
      exact hreads

theorem middleOutLoopReads_fst (xs : List α) (n : Int) :
    ∀ (fuel : Nat) (left right : Int) (out : List α) (reads : List Int),
      (middleOutLoopReads xs n fuel left right out reads).1 =
        middleOutLoop xs n fuel left right out := by
  intro fuel
  induction fuel with
  | zero =>
    intro left right out reads
    rfl
  | succ fuel ih =>
    intro left right out reads
    simp only [middleOutLoopReads, middleOutLoop]
    by_cases hc : 0 ≤ left ∨ right < n
    · simp only [hc, if_true]
      by_cases hl : 0 ≤ left
      · simp only [hl, if_true]
        cases hrl : readAt xs left with
        | none => rfl
        | some a =>
          simp only [Option.map_some']
          by_cases hr : right < n
          · simp only [hr, if_true]
            cases hrr : readAt xs right with
            | none => rfl
            | some b =>
              simp only [Option.map_some']
              exact ih _ _ _ _
          · simp only [hr, if_false]
            exact ih _ _ _ _
      · simp only [hl, if_false]
        by_cases hr : right < n
        · simp only [hr, if_true]
          cases hrr : readAt xs right with
          | none => rfl
          | some b =>
            simp only [Option.map_some']
            exact ih _ _ _ _
        · simp only [hr, if_false]
          exact ih _ _ _ _
    · simp only [hc, if_false]

theorem middleOutLoopReads_range (xs : List α) :
    ∀ (fuel L R : Nat) (out : List α) (reads : List Int), L ≤ R → R ≤ xs.length →
      (∀ i ∈ reads, 0 ≤ i ∧ i < (xs.length : Int)) →
      ∀ i ∈ (middleOutLoopReads xs (xs.length : Int) fuel ((L : Int) - 1) (R : Int) out reads).2,
        0 ≤ i ∧ i < (xs.length : Int) := by
  intro fuel
  induction fuel with
  | zero =>
    intro L R out reads hLR hR hreads
    exact hreads
  | succ fuel ih =>
    intro L R out reads hLR hR hreads
    by_cases hc : 0 ≤ (L : Int) - 1 ∨ (R : Int) < (xs.length : Int)
    · by_cases hl : 0 ≤ (L : Int) - 1
      · have hLlt : L - 1 < xs.length := by omega
        have hreadL : readAt xs ((L : Int) - 1) = some xs[L - 1] :=
          readAt_of_eq xs _ (L - 1) (by omega) hLlt
        have e1 : (L : Int) - 1 - 1 = ((L - 1 : Nat) : Int) - 1 := by omega
        by_cases hr : (R : Int) < (xs.length : Int)
        · have hRlt : R < xs.length := by omega
          have hreadR : readAt xs (R : Int) = some xs[R] := readAt_of_eq xs _ R rfl hRlt
          have e2 : (R : Int) + 1 = ((R + 1 : Nat) : Int) := by omega
          simp only [middleOutLoopReads, hc, if_true, hl, hreadL, Option.map_some', hr, hreadR]
          rw [e1, e2]
          refine ih (L - 1) (R + 1) _ _ (by omega) (by omega) ?_
          intro i hi
          simp only [List.mem_append, List.mem_singleton] at hi
          rcases hi with (hi | hi) | hi
          · exact hreads i hi
          · omega
          · omega
        · simp only [middleOutLoopReads, hc, if_true, hl, hreadL, Option.map_some', hr, if_false]
          rw [e1]
          refine ih (L - 1) R _ _ (by omega) hR ?_
          intro i hi
          simp only [List.mem_append, List.mem_singleton] at hi
          rcases hi with hi | hi
          · exact hreads i hi
          · omega
      · have hr : (R : Int) < (xs.length : Int) := by
          rcases hc with h1 | h2
          · exact absurd h1 hl
          · exact h2
        have hRlt : R < xs.length := by omega
        have hreadR : readAt xs (R : Int) = some xs[R] := readAt_of_eq xs _ R rfl hRlt
        have e2 : (R : Int) + 1 = ((R + 1 : Nat) : Int) := by omega
        simp only [middleOutLoopReads, hc, if_true, hl, if_false, hr, hreadR, Option.map_some']
        rw [e2]
        refine ih L (R + 1) _ _ (by omega) (by omega) ?_
        intro i hi
        simp only [List.mem_append, List.mem_singleton] at hi
        rcases hi with hi | hi
        · exact hreads i hi
        · omega
    · simp only [middleOutLoopReads, hc, if_false]
      exact hreads

theorem sideCrossLoopReads_exit (temp : List α) (fuel : Nat) (left right : Int)
    (out : List α) (reads : List Int) (h : ¬ left ≤ right) :
    sideCrossLoopReads temp fuel left right out reads = (some out, reads) := by
  cases fuel <;> simp only [sideCrossLoopReads, h, if_false]

theorem sideCrossElementsReads_spec [LinearOrder α] (elements : List α) :
    (sideCrossElementsReads elements).1 = sideCrossElements elements ∧
      ∀ i ∈ (sideCrossElementsReads elements).2, 0 ≤ i ∧ i < (elements.length : Int) := by
  have hlen : (std_sort elements).length = elements.length := List.length_insertionSort _ _
  cases helem : elements with
  | nil =>
    refine ⟨rfl, ?_⟩
    intro i hi
    simp [sideCrossElementsReads] at hi
  | cons a t =>
    rw [← helem]
    have hne : elements.isEmpty = false := by rw [helem]; rfl
    have hpos : 1 ≤ elements.length := by rw [helem]; simp
    refine ⟨?_, ?_⟩
    · simp only [sideCrossElementsReads, sideCrossElements, hne]
      exact sideCrossLoopReads_fst _ _ _ _ _ _
    · simp only [sideCrossElementsReads, hne]
      rw [hlen]
      by_cases hneg : toInt (elements.length - 1) < 0
      · rw [sideCrossLoopReads_exit _ _ _ _ _ _ (by omega)]
        intro i hi
        simp at hi
      · have hconv : toInt (elements.length - 1)
            = (((elements.length - 1) % 4294967296 + 1 : Nat) : Int) - 1 := by
          unfold toInt at hneg ⊢
          split_ifs at hneg ⊢ <;> omega
        have hle : (elements.length - 1) % 4294967296 ≤ elements.length - 1 :=
          Nat.mod_le _ _
        rw [hconv]
        have h := sideCrossLoopReads_range (std_sort elements) elements.length 0
          ((elements.length - 1) % 4294967296 + 1) [] [] (Nat.zero_le _) (by omega) (by simp)
        rw [hlen] at h
        exact h

theorem middleOutElementsReads_eq (xs : List α) (hne : xs.isEmpty = false) :
    middleOutElementsReads xs =
      match readAt xs (Int.tdiv (toInt xs.length) 2) with
      | none => (none, [Int.tdiv (toInt xs.length) 2])
      | some m =>
        middleOutLoopReads xs (toInt xs.length) xs.length (Int.tdiv (toInt xs.length) 2 - 1)
          (Int.tdiv (toInt xs.length) 2 + 1) [m] [Int.tdiv (toInt xs.length) 2] := by
  unfold middleOutElementsReads
  rw [hne]
  rfl

theorem middleOutElementsReads_fst (xs : List α) :
    (middleOutElementsReads xs).1 = middleOutElements xs := by
  cases hxs : xs with
  | nil => rfl
  | cons a t =>
    rw [← hxs]
    have hne : xs.isEmpty = false := by rw [hxs]; rfl
    rw [middleOutElementsReads_eq xs hne, middleOutElements_eq xs hne]
    cases hr : readAt xs (Int.tdiv (toInt xs.length) 2) with
    | none => rfl
    | some m => exact middleOutLoopReads_fst _ _ _ _ _ _ _

theorem middleOutElementsReads_range (xs : List α) (hfit : xs.length ≤ INT_MAX) :
    ∀ i ∈ (middleOutElementsReads xs).2, 0 ≤ i ∧ i < (xs.length : Int) := by
  cases hxs : xs with
  | nil =>
    intro i hi
    simp [middleOutElementsReads] at hi
  | cons a t =>
    rw [← hxs]
    have hne : xs.isEmpty = false := by rw [hxs]; rfl
    have hpos : 1 ≤ xs.length := by rw [hxs]; simp
    have hmlt : xs.length / 2 < xs.length := by omega
    have hmid : Int.tdiv (xs.length : Int) 2 = ((xs.length / 2 : Nat) : Int) := by
      rw [Int.tdiv_eq_ediv (by omega) (by omega)]
      omega
    have hread : readAt xs (Int.tdiv (xs.length : Int) 2) = some xs[xs.length / 2] :=
      readAt_of_eq xs _ (xs.length / 2) hmid hmlt
    rw [middleOutElementsReads_eq xs hne, toInt_of_le_INT_MAX xs.length hfit, hread]
    simp only []
    rw [hmid]
    have e : ((xs.length / 2 : Nat) : Int) + 1 = ((xs.length / 2 + 1 : Nat) : Int) := by omega
    rw [e]
    refine middleOutLoopReads_range xs xs.length (xs.length / 2) (xs.length / 2 + 1) _ _
      (by omega) (by omega) ?_
    intro i hi
    simp only [List.mem_singleton] at hi
    omega

theorem readAt_in_range (l : List α) (i : Int) (h0 : 0 ≤ i) (h1 : i < (l.length : Int)) :
    ∃ x, readAt l i = some x :=
  ⟨_, readAt_of_eq l i i.toNat (by omega) (by omega)⟩

/-- For a collection of at most `INT_MAX` elements: every index at which the
side-cross constructor reads the sorted copy, and every index at which the
middle-out constructor reads the copy, lies in `0 .. size()-1`, so each
checked read succeeds and both constructors produce their view; for the
empty collection no index is read. The recording loops compute the same
views as the constructors. -/
theorem constructor_reads_in_range_within_int [LinearOrder α] (c : MyContainer α)
    (hfit : c.size ≤ INT_MAX) :
    (sideCrossElementsReads c.elements).1 = sideCrossElements c.elements ∧
      (∃ v, sideCrossElements c.elements = some v) ∧
      (∀ i ∈ (sideCrossElementsReads c.elements).2,
        0 ≤ i ∧ i < (c.size : Int) ∧ ∃ x, readAt (std_sort c.elements) i = some x) ∧
      (middleOutElementsReads c.elements).1 = middleOutElements c.elements ∧
      (∃ v, middleOutElements c.elements = some v) ∧
      (∀ i ∈ (middleOutElementsReads c.elements).2,
        0 ≤ i ∧ i < (c.size : Int) ∧ ∃ x, readAt c.elements i = some x) ∧
      (c.size = 0 →
        (sideCrossElementsReads c.elements).2 = [] ∧
          (middleOutElementsReads c.elements).2 = []) := by
  have hlen : (std_sort c.elements).length = c.elements.length := List.length_insertionSort _ _
  obtain ⟨hs1, hs2⟩ := sideCrossElementsReads_spec c.elements
  have hm1 := middleOutElementsReads_fst c.elements
  have hm2 := middleOutElementsReads_range c.elements hfit
  obtain ⟨v, hv⟩ := sideCrossElements_total c.elements
  obtain ⟨w, hw, -⟩ := middleOutElements_some c.elements hfit
  refine ⟨hs1, ⟨v, hv⟩, ?_, hm1, ⟨w, hw⟩, ?_, ?_⟩
  · intro i hi
    obtain ⟨h0, h1⟩ := hs2 i hi
    exact ⟨h0, h1, readAt_in_range _ i h0 (by rw [hlen]; exact h1)⟩
  · intro i hi
    obtain ⟨h0, h1⟩ := hm2 i hi
    exact ⟨h0, h1, readAt_in_range _ i h0 h1⟩
  · intro h0
    have hnil : c.elements = [] := List.length_eq_zero.mp h0
    rw [hnil]
    exact ⟨rfl, rfl⟩

theorem middleOutElementsReads_of_negative_middle (xs : List α) (hpos : 0 < xs.length)
    (hneg : Int.tdiv (toInt xs.length) 2 < 0) :
    middleOutElementsReads xs = (none, [Int.tdiv (toInt xs.length) 2]) := by
  have hne : xs.isEmpty = false := by
    cases xs with
    | nil => simp at hpos
    | cons a l => rfl
  have hread : readAt xs (Int.tdiv (toInt xs.length) 2) = none := by
    unfold readAt
    rw [if_neg (by omega)]
  rw [middleOutElementsReads_eq xs hne, hread]

theorem overIntMax_middle : Int.tdiv (toInt overIntMax.elements.length) 2 = -1073741823 := by
  rw [overIntMax_length]
  decide

theorem overIntMax_middle_out_reads :
    middleOutElementsReads overIntMax.elements
      = (none, [Int.tdiv (toInt overIntMax.elements.length) 2]) :=
  middleOutElementsReads_of_negative_middle overIntMax.elements
    (by rw [overIntMax_length]; decide) (by rw [overIntMax_middle]; decide)

/-- Claim C25 fails on the program for a collection of `2^31 + 1` elements:
in the middle-out constructor `int n = temp.size()` is `-(2^31 - 1)`, so
the first read `temp[middle]` is made at index `-1073741823`, outside
`0 .. size()-1`; the checked read fails and no view is produced. The
recording loop agrees with the constructor. -/
theorem middle_out_reads_out_of_range_beyond_int_max :
    overIntMax.size = 2147483649 ∧
      Int.tdiv (toInt overIntMax.elements.length) 2 = -1073741823 ∧
      middleOutElementsReads overIntMax.elements
        = (none, [Int.tdiv (toInt overIntMax.elements.length) 2]) ∧
      (middleOutElementsReads overIntMax.elements).1 = middleOutElements overIntMax.elements ∧
      middleOutElements overIntMax.elements = none ∧
      ¬ (0 ≤ Int.tdiv (toInt overIntMax.elements.length) 2) ∧
      readAt overIntMax.elements (Int.tdiv (toInt overIntMax.elements.length) 2) = none := by
  have hneg : ¬ (0 ≤ Int.tdiv (toInt overIntMax.elements.length) 2) := by
    rw [overIntMax_middle]
    decide
  refine ⟨overIntMax_size, overIntMax_middle, overIntMax_middle_out_reads,
    middleOutElementsReads_fst overIntMax.elements, overIntMax_middle_out, hneg, ?_⟩
  unfold readAt
  rw [if_neg hneg]

/-! ## Views that depend on the stored values only -/

theorem sideCrossElements_congr [LinearOrder α] (l1 l2 : List α) (h : l1.Perm l2) :
    sideCrossElements l1 = sideCrossElements l2 := by
  have hsort : std_sort l1 = std_sort l2 :=
    List.eq_of_perm_of_sorted
      ((List.perm_insertionSort _ _).trans (h.trans (List.perm_insertionSort _ _).symm))
      (List.sorted_insertionSort (fun a b => a ≤ b) l1)
      (List.sorted_insertionSort (fun a b => a ≤ b) l2)
  have hempty : l1.isEmpty = l2.isEmpty := by
    cases l1 with
    | nil =>
      have h2 : l2 = [] := (List.Perm.nil_eq h).symm
      rw [h2]
    | cons a t =>
      cases l2 with
      | nil => exact absurd h.symm.nil_eq.symm (List.cons_ne_nil a t)
      | cons b u => rfl
  simp only [sideCrossElements, hsort, hempty]

/-- Claim C26: two collections whose storages are permutations of each other
have the same ascending view, the same descending view and the same
side-cross view, with equal begin iterators, equal end iterators and equal
traversals. -/
theorem sorted_views_depend_on_values_only [LinearOrder α] (c1 c2 : MyContainer α)
    (h : c1.elements.Perm c2.elements) :
    c1.begin_ascending_order.sorted_elements = c2.begin_ascending_order.sorted_elements ∧
      c1.begin_descending_order.sorted_elements = c2.begin_descending_order.sorted_elements ∧
      (∃ it1 it2, c1.begin_side_cross_order = some it1 ∧ c2.begin_side_cross_order = some it2 ∧
        it1.sorted_elements = it2.sorted_elements) ∧
      (∀ kind, kind = Producer.ascending ∨ kind = Producer.descending ∨
          kind = Producer.side_cross →
        c1.beginOf kind = c2.beginOf kind ∧ c1.endOf kind = c2.endOf kind ∧
          c1.traverse kind = c2.traverse kind) := by
  have hlen : c1.elements.length = c2.elements.length := h.length_eq
  have hasc : std_sort c1.elements = std_sort c2.elements :=
    List.eq_of_perm_of_sorted
      ((List.perm_insertionSort _ _).trans (h.trans (List.perm_insertionSort _ _).symm))
      (List.sorted_insertionSort (fun a b => a ≤ b) c1.elements)
      (List.sorted_insertionSort (fun a b => a ≤ b) c2.elements)
  have hdesc : std_sort_greater c1.elements = std_sort_greater c2.elements :=
    List.eq_of_perm_of_sorted (r := fun a b : α => a ≥ b)
      ((List.perm_insertionSort _ _).trans (h.trans (List.perm_insertionSort _ _).symm))
      (List.sorted_insertionSort (fun a b : α => a ≥ b) c1.elements)
      (List.sorted_insertionSort (fun a b : α => a ≥ b) c2.elements)
  have hside := sideCrossElements_congr c1.elements c2.elements h
  have hkinds : ∀ kind, kind = Producer.ascending ∨ kind = Producer.descending ∨
      kind = Producer.side_cross →
      c1.beginOf kind = c2.beginOf kind ∧ c1.endOf kind = c2.endOf kind := by
    intro kind hk
    rcases hk with rfl | rfl | rfl
    · simp [MyContainer.beginOf, MyContainer.endOf, MyContainer.begin_ascending_order,
        MyContainer.end_ascending_order, AscendingIterator, hasc, hlen]
    · simp [MyContainer.beginOf, MyContainer.endOf, MyContainer.begin_descending_order,
        MyContainer.end_descending_order, DescendingIterator, hdesc, hlen]
    · simp [MyContainer.beginOf, MyContainer.endOf, MyContainer.begin_side_cross_order,
        MyContainer.end_side_cross_order, SideCrossIterator, hside, hlen]
  refine ⟨hasc, hdesc, ?_, ?_⟩
  · obtain ⟨v, hv⟩ := sideCrossElements_total c2.elements
    refine ⟨BaseIterator.mk v 0, BaseIterator.mk v 0, ?_, ?_, rfl⟩
    · simp [MyContainer.begin_side_cross_order, SideCrossIterator, hside, hv]
    · simp [MyContainer.begin_side_cross_order, SideCrossIterator, hv]
  · intro kind hk
    obtain ⟨hb, he⟩ := hkinds kind hk
    refine ⟨hb, he, ?_⟩
    simp only [MyContainer.traverse, hb, he, MyContainer.size, hlen]

theorem sorted_views_depend_on_values_only_witness :
    (MyContainer.mk [7, 15, 6, 1, 2]).elements.Perm (MyContainer.mk [2, 1, 6, 15, 7]).elements ∧
      (MyContainer.mk [7, 15, 6, 1, 2]).begin_ascending_order.sorted_elements
        = (MyContainer.mk [2, 1, 6, 15, 7]).begin_ascending_order.sorted_elements ∧
      (MyContainer.mk [7, 15, 6, 1, 2]).traverse Producer.side_cross
        = (MyContainer.mk [2, 1, 6, 15, 7]).traverse Producer.side_cross :=
  ⟨by decide,
    (sorted_views_depend_on_values_only (MyContainer.mk [7, 15, 6, 1, 2])
      (MyContainer.mk [2, 1, 6, 15, 7]) (by decide)).1,
    ((sorted_views_depend_on_values_only (MyContainer.mk [7, 15, 6, 1, 2])
      (MyContainer.mk [2, 1, 6, 15, 7]) (by decide)).2.2.2 Producer.side_cross
        (Or.inr (Or.inr rfl))).2.2⟩

end ariel
